import Mathlib

/-!
Verification of the retrieval / rerank / synthesis / aggregation core of the
ai-research-assistant repository, as a shallow embedding in Lean 4.

Python text values are modelled as `List Char` (one entry per character, as in
Python string indexing/slicing), floating point scores as exact rationals `ℚ`,
Python `None` as `Option`, and Python dicts as insertion-ordered association
lists.  Each definition mirrors one function of the source tree; the mirrored
Python function is named in its doc comment.
-/

namespace Aria

/-! ## Character and string primitives -/

/-- ASCII whitespace, as matched by the regex class used in
`SemanticChunker._split_sentences` and by `str.strip`. -/
def isWsC (c : Char) : Bool :=
  c = ' ' || c = '\t' || c = '\n' || c = '\x0d' || c = '\x0c' || c = '\x0b'

/-- Sentence-ending punctuation of the lookbehind in
`SemanticChunker._split_sentences` (`(?<=[.!?])`). -/
def isEndC (c : Char) : Bool := c = '.' || c = '!' || c = '?'

/-- The `[A-Z]` class of the lookahead in `SemanticChunker._split_sentences`. -/
def isUpperC (c : Char) : Bool := 'A' ≤ c && c ≤ 'Z'

/-- The `\d` class of `re.compile(r"\[(\d+)\]")` in
`CitationAwareSynthesizer._extract_citations` (ASCII digits). -/
def isDigitC (c : Char) : Bool := '0' ≤ c && c ≤ '9'

/-- The `\w` class of `re.findall(r"\b\w+\b", text)` in
`KeywordRetriever._tokenize` (ASCII letters, digits and underscore). -/
def isWordC (c : Char) : Bool :=
  ('a' ≤ c && c ≤ 'z') || ('A' ≤ c && c ≤ 'Z') || isDigitC c || c = '_'

/-- An apostrophe character (U+0027), spliced into string constants. -/
def apos : Char := Char.ofNat 39

/-- Python `str.strip()` over the character-list model. -/
def trimChars (l : List Char) : List Char :=
  ((l.dropWhile isWsC).reverse.dropWhile isWsC).reverse

/-- Python `str.lower()` over the character-list model (ASCII case fold). -/
def lowerChars (l : List Char) : List Char := l.map Char.toLower

/-- Python `" ".join(pieces)` over the character-list model. -/
def joinSp : List (List Char) → List Char
  | [] => []
  | [p] => p
  | p :: rest => p ++ ' ' :: joinSp rest

/-- Numeric value of a digit run (`int(m)` on a regex group of digits). -/
def digitsVal (l : List Char) : Nat :=
  l.foldl (fun acc c => acc * 10 + (c.toNat - '0'.toNat)) 0

/-! ## Stable sorting

Python's `sorted(..., key=f, reverse=True)` and `list.sort(key=f, reverse=True)`
are stable descending sorts: elements comparing equal under `f` keep their
input order.  `insertDesc`/`sortDesc` implement exactly that stable descending
sort (an element is inserted in front of the first element whose key is `≤`
its own, so earlier input elements precede equal-keyed later ones). -/

def insertDesc {α : Type} (key : α → ℚ) (x : α) : List α → List α
  | [] => [x]
  | y :: ys => if key y ≤ key x then x :: y :: ys else y :: insertDesc key x ys

def sortDesc {α : Type} (key : α → ℚ) : List α → List α
  | [] => []
  | x :: xs => insertDesc key x (sortDesc key xs)

/-- Ascending insertion for natural numbers (`sorted(...)` on a set of ints in
`CitationAwareSynthesizer._extract_citations`). -/
def insertAsc (n : Nat) : List Nat → List Nat
  | [] => [n]
  | m :: ms => if n ≤ m then n :: m :: ms else m :: insertAsc n ms

def sortAsc : List Nat → List Nat
  | [] => []
  | n :: ns => insertAsc n (sortAsc ns)

/-- Python `max` over a list of rationals; `1` on the empty list mirrors the
`if scores else 1.0` guards at the call sites. -/
def maxQ : List ℚ → ℚ
  | [] => 1
  | x :: xs => xs.foldl max x

/-! ## Association lists (Python dicts, insertion ordered) -/

/-- First value stored under key `k` (`d[k]` / `d.get(k)`). -/
def alGet {κ : Type} [DecidableEq κ] {β : Type} (k : κ) : List (κ × β) → Option β
  | [] => none
  | p :: rest => if p.1 = k then some p.2 else alGet k rest

/-- `d[k] = v`: replace the value in place if the key exists, else append. -/
def alSet {κ : Type} [DecidableEq κ] {β : Type} (k : κ) (v : β)
    (l : List (κ × β)) : List (κ × β) :=
  if l.any (fun p => p.1 = k) then
    l.map (fun p => if p.1 = k then (k, v) else p)
  else l ++ [(k, v)]

/-- `if k not in d: d[k] = v` (used for `results_map` on the keyword pass). -/
def alSetIfAbsent {κ : Type} [DecidableEq κ] {β : Type} (k : κ) (v : β)
    (l : List (κ × β)) : List (κ × β) :=
  if l.any (fun p => p.1 = k) then l else l ++ [(k, v)]

/-- `scores[k] = scores.get(k, 0) + v` in `HybridRetriever._rrf_fusion`. -/
def alAddQ {κ : Type} [DecidableEq κ] (k : κ) (v : ℚ)
    (l : List (κ × ℚ)) : List (κ × ℚ) :=
  if l.any (fun p => p.1 = k) then
    l.map (fun p => if p.1 = k then (p.1, p.2 + v) else p)
  else l ++ [(k, v)]

/-- `defaultdict(list); d[k].append(v)` in
`LiteratureAggregator._deduplicate_results`. -/
def alAppendGroup {κ : Type} [DecidableEq κ] {β : Type} (k : κ) (v : β)
    (l : List (κ × List β)) : List (κ × List β) :=
  if l.any (fun p => p.1 = k) then
    l.map (fun p => if p.1 = k then (p.1, p.2 ++ [v]) else p)
  else l ++ [(k, [v])]

/-- `d1.update(d2)` on Python dicts: every key of `d2` is written into `d1`. -/
def alUpdate {κ : Type} [DecidableEq κ] {β : Type}
    (d1 d2 : List (κ × β)) : List (κ × β) :=
  d2.foldl (fun acc p => alSet p.1 p.2 acc) d1

/-! ## Data model: retrieval results

`RetrievalResult` mirrors the dataclass in `aria/rag/retrieval/base.py`.
The Python field `section` is a reserved word in Lean and is embedded as
`sectionName`.  The free-form metadata dict only ever stores the reranker's
`rerank_score` float, so it is modelled as a rational-valued dict. -/

structure RetrievalResult where
  chunk_id : String
  document_id : String
  content : List Char
  score : ℚ
  sectionName : Option String := none
  page_number : Option Nat := none
  document_title : Option String := none
  metadata : List (String × ℚ) := []
deriving DecidableEq, Repr

/-! ## Hybrid retrieval: Reciprocal Rank Fusion

Embedding of `HybridRetriever._rrf_fusion` (`aria/rag/retrieval/hybrid.py`).
The `scores` dict is accumulated over both ranked lists with 1-based ranks,
`results_map` keeps the semantic result on collisions (the keyword pass only
fills absent keys), and the output is the stable descending sort of the score
dict with every score divided by the maximum accumulated score. -/

/-- The class attribute `HybridRetriever.RRF_K`. -/
def RRF_K : ℚ := 60

/-- One `for rank, result in enumerate(lst, 1)` pass over a ranked list,
adding `weight / (RRF_K + rank)` into the scores dict. -/
def rrfAddScores (w : ℚ) : ℚ → List RetrievalResult → List (String × ℚ) →
    List (String × ℚ)
  | _, [], scores => scores
  | rank, r :: rest, scores =>
      rrfAddScores w (rank + 1) rest
        (alAddQ r.chunk_id (w / (RRF_K + rank)) scores)

/-- The `results_map[chunk_id] = result` pass (semantic results overwrite). -/
def rrfMapSem : List RetrievalResult → List (String × RetrievalResult) →
    List (String × RetrievalResult)
  | [], m => m
  | r :: rest, m => rrfMapSem rest (alSet r.chunk_id r m)

/-- The `if chunk_id not in results_map` pass (keyword results only fill
absent keys). -/
def rrfMapKw : List RetrievalResult → List (String × RetrievalResult) →
    List (String × RetrievalResult)
  | [], m => m
  | r :: rest, m => rrfMapKw rest (alSetIfAbsent r.chunk_id r m)

/-- `HybridRetriever._rrf_fusion(semantic_results, keyword_results)` with the
configured weights. -/
def rrfFusion (semWeight kwWeight : ℚ)
    (semantic keyword : List RetrievalResult) : List RetrievalResult :=
  let scores := rrfAddScores kwWeight 1 keyword
    (rrfAddScores semWeight 1 semantic [])
  let rmap := rrfMapKw keyword (rrfMapSem semantic [])
  let sorted := sortDesc (fun p => p.2) scores
  let maxScore := maxQ (scores.map (fun p => p.2))
  sorted.filterMap (fun p =>
    (alGet p.1 rmap).map (fun r => { r with score := p.2 / maxScore }))

/-! ## Keyword retrieval: BM25

Embedding of `KeywordRetriever` (`aria/rag/retrieval/keyword.py`).  The SQL
layer is external: the fetched rows (chunk id, document id, content, section,
page, token count, document title) are taken as input.  `math.log` is
transcendental, so the scorer is parameterised by the logarithm function
`lg`; every property proved below holds for any `lg` that is positive on
arguments `> 1`, which `math.log` is. -/

/-- One fetched row of the chunk/document join in `KeywordRetriever.retrieve`. -/
structure KwRow where
  id : String
  document_id : String
  content : List Char
  sectionName : Option String := none
  page_number : Option Nat := none
  token_count : Nat
  document_title : Option String := none
deriving DecidableEq, Repr

/-- The stop-word set of `KeywordRetriever._tokenize`. -/
def stopwords : List (List Char) :=
  ["the", "a", "an", "is", "are", "was", "were", "be", "been",
   "being", "have", "has", "had", "do", "does", "did", "will",
   "would", "could", "should", "may", "might", "must", "shall",
   "can", "to", "of", "in", "for", "on", "with", "at", "by",
   "from", "as", "into", "through", "during", "before", "after",
   "above", "below", "between", "under", "again", "further",
   "then", "once", "here", "there", "when", "where", "why",
   "how", "all", "each", "few", "more", "most", "other", "some",
   "such", "no", "nor", "not", "only", "own", "same", "so",
   "than", "too", "very", "just", "and", "but", "if", "or",
   "because", "until", "while", "this", "that", "these", "those"].map
    String.toList

/-- Scanner for `re.findall(r"\b\w+\b", text)`: `cur` is the word-character
run in progress; a run is emitted when it ends (at a non-word character or
at the end of input), giving exactly the maximal word-character runs. -/
def wordRunsAux (cur : List Char) : List Char → List (List Char)
  | [] => if cur.isEmpty then [] else [cur]
  | c :: rest =>
      if isWordC c then wordRunsAux (cur ++ [c]) rest
      else if cur.isEmpty then wordRunsAux [] rest
      else cur :: wordRunsAux [] rest

/-- `re.findall(r"\b\w+\b", text)`: the maximal runs of word characters. -/
def wordRuns (l : List Char) : List (List Char) := wordRunsAux [] l

/-- `KeywordRetriever._tokenize(text)`: lower-case, split into word runs,
keep tokens of length `> 2` that are not stop-words. -/
def kwTokenize (text : List Char) : List (List Char) :=
  (wordRuns (lowerChars text)).filter
    (fun t => 2 < t.length && !(stopwords.contains t))

/-- The `term_doc_freq` counter: each scan of a row adds one count per
occurrence of the term in the query-term list, for rows whose content
contains the term. -/
def kwDocFreq (qterms : List (List Char)) (rows : List KwRow)
    (t : List Char) : Nat :=
  (qterms.count t) *
    (rows.countP (fun row => (kwTokenize row.content).contains t))

/-- `idfs[term] = log((doc_count - df + 0.5) / (df + 0.5) + 1)`. -/
def kwIdf (lg : ℚ → ℚ) (qterms : List (List Char)) (rows : List KwRow)
    (t : List Char) : ℚ :=
  let df : ℚ := kwDocFreq qterms rows t
  lg (((rows.length : ℚ) - df + 1/2) / (df + 1/2) + 1)

/-- The per-row BM25 score loop of `KeywordRetriever.retrieve` (constants
`K1 = 1.2`, `B = 0.75`); iterates the query-term list with multiplicity,
exactly as the Python `for term in query_terms` loop does. -/
def kwScore (lg : ℚ → ℚ) (qterms : List (List Char)) (rows : List KwRow)
    (row : KwRow) : ℚ :=
  let avgDocLen : ℚ := (((rows.map (fun r => r.token_count)).sum : ℚ)) / rows.length
  let contentTerms := kwTokenize row.content
  let docLen : ℚ := row.token_count
  qterms.foldl
    (fun acc t =>
      let tf : ℚ := contentTerms.count t
      if 0 < tf then
        acc + kwIdf lg qterms rows t *
          ((tf * (12/10 + 1)) /
            (tf + 12/10 * (1 - 3/4 + 3/4 * docLen / avgDocLen)))
      else acc)
    0

/-- Position of a chunk id in the fetched row order (used to state that the
stable sort keeps equal-scored rows in input order). -/
def idIndex (rows : List KwRow) (cid : String) : Nat :=
  (rows.map (fun r => r.id)).indexOf cid

/-- The `RetrievalResult(...)` built for a scoring row. -/
def kwResult (row : KwRow) (score : ℚ) : RetrievalResult :=
  { chunk_id := row.id
    document_id := row.document_id
    content := row.content
    score := score
    sectionName := row.sectionName
    page_number := row.page_number
    document_title := row.document_title }

/-- The scoring pass of `KeywordRetriever.retrieve`: rows whose BM25 score
is strictly positive are kept with their raw score and built result. -/
def kwScored (lg : ℚ → ℚ) (qterms : List (List Char)) (rows : List KwRow) :
    List (ℚ × RetrievalResult) :=
  rows.filterMap (fun row =>
    if 0 < kwScore lg qterms rows row then
      some (kwScore lg qterms rows row,
        kwResult row (kwScore lg qterms rows row))
    else none)

/-- The final normalization of `KeywordRetriever.retrieve`: when results are
nonempty and the maximum score positive, every score is divided by it. -/
def kwNormalize (results : List RetrievalResult) : List RetrievalResult :=
  if results = [] then results
  else if 0 < maxQ (results.map (fun r => r.score)) then
    results.map (fun r =>
      { r with score := r.score / maxQ (results.map (fun r => r.score)) })
  else results

/-- `KeywordRetriever.retrieve(query, top_k)` over a fetched row set:
tokenize the query (empty term set short-circuits to `[]`), score each row,
keep strictly positive scores, stable-sort descending, truncate to `top_k`,
then divide every kept score by the maximum kept score. -/
def kwRetrieve (lg : ℚ → ℚ) (query : List Char) (rows : List KwRow)
    (top_k : Nat) : List RetrievalResult :=
  if kwTokenize query = [] then []
  else if rows = [] then []
  else
    kwNormalize
      (((sortDesc (fun p => p.1)
          (kwScored lg (kwTokenize query) rows)).take top_k).map
        (fun p => p.2))

/-! ## Cross-encoder reranking

Embedding of `CrossEncoderReranker` (`aria/rag/reranking/cross_encoder.py`).
The sentence-transformers model is external; `_load_model` either produces a
loaded model (a scoring function for (query, content) pairs) or the string
sentinel `"fallback"` when the import fails. -/

inductive ModelState where
  | loaded (predict : List Char → List Char → ℚ) : ModelState
  | fallback : ModelState

/-- `CrossEncoderReranker._load_model`: the `try: from sentence_transformers
module pull in CrossEncoder ... except ImportError: self._model = "fallback"`
branch, keyed on whether the module load succeeds. -/
def loadModel (importOk : Bool) (predict : List Char → List Char → ℚ) :
    ModelState :=
  if importOk then ModelState.loaded predict else ModelState.fallback

/-- `CrossEncoderReranker.rerank(query, results, top_k)`.  Empty input returns
`[]`.  With the `"fallback"` sentinel the pre-existing scores are used for a
stable descending sort truncated to `top_k`.  With a loaded model the
cross-encoder scores are min-max normalized over the candidate set (range `1`
when degenerate) and stored, with the raw score recorded in metadata. -/
def rerank (st : ModelState) (query : List Char)
    (results : List RetrievalResult) (top_k : Nat) : List RetrievalResult :=
  if results = [] then []
  else
    match st with
    | ModelState.fallback =>
        (sortDesc (fun r => r.score) results).take top_k
    | ModelState.loaded predict =>
        let scores := results.map (fun r => predict query r.content)
        let scoredResults := sortDesc (fun p => p.1) (scores.zip results)
        let maxScore := if scores.any (fun s => s ≠ 0) then maxQ scores else 1
        let minScore := if scores.any (fun s => s ≠ 0) then
            -(maxQ (scores.map (fun s => -s))) else 0
        let range := if maxScore ≠ minScore then maxScore - minScore else 1
        (scoredResults.take top_k).map (fun p =>
          { p.2 with
            score := (p.1 - minScore) / range
            metadata := alSet "rerank_score" p.1 p.2.metadata })

/-! ## Citation-aware synthesis

Embedding of `CitationAwareSynthesizer` (`aria/rag/synthesis/citation_aware.py`).
`Citation` mirrors the Pydantic model in `aria/types.py`; `SynthesisResult`
mirrors the dataclass of the synthesis module.  The Anthropic client is the
external LLM collaborator: it is modelled as an oracle from the prompt to an
optional `(answer text, output tokens, input tokens)` triple, `none` standing
for an unavailable or failing provider. -/

structure Citation where
  citation_id : Nat
  document_id : String
  chunk_id : Option String := none
  title : String
  excerpt : List Char
  page : Option Nat := none
  confidence : ℚ
deriving DecidableEq, Repr

structure SynthesisResult where
  answer : List Char
  citations : List Citation := []
  sources_used : Nat := 0
  confidence : ℚ := 0
  tokens_used : Nat := 0
  input_tokens : Nat := 0
deriving DecidableEq, Repr

/-- Scanner for `re.findall(r"\[(\d+)\]", answer)`.  The state is `none`
outside a candidate match and `some digits` after an opening `[` followed by
the digits read so far.  A match closes on `]` after at least one digit; a
`[` restarts a candidate; any other character abandons it.  This yields the
regex's non-overlapping left-to-right matches: a literal `[`, a maximal
nonempty digit run, and a literal `]`. -/
def findCitationNumsAux (st : Option (List Char)) : List Char → List Nat
  | [] => []
  | c :: rest =>
      match st with
      | none =>
          if c = '[' then findCitationNumsAux (some []) rest
          else findCitationNumsAux none rest
      | some digits =>
          if isDigitC c then findCitationNumsAux (some (digits ++ [c])) rest
          else if c = ']' && !digits.isEmpty then
            digitsVal digits :: findCitationNumsAux none rest
          else if c = '[' then findCitationNumsAux (some []) rest
          else findCitationNumsAux none rest

/-- `re.findall(r"\[(\d+)\]", answer)`, numerically valued. -/
def findCitationNums (answer : List Char) : List Nat :=
  findCitationNumsAux none answer

/-- `enumerate(context, 1)` as the citation map `{i: chunk}`. -/
def citationMapFrom : Nat → List RetrievalResult → List (Nat × RetrievalResult)
  | _, [] => []
  | i, r :: rest => (i, r) :: citationMapFrom (i + 1) rest

def citationMap (context : List RetrievalResult) : List (Nat × RetrievalResult) :=
  citationMapFrom 1 context

/-- The excerpt built for a citation: first 200 characters of the chunk
content, with `"..."` appended when the content is longer than 200. -/
def excerptOf (content : List Char) : List Char :=
  content.take 200 ++ (if 200 < content.length then "...".toList else [])

/-- Python `title or "Unknown"`: `None` and the empty string both fall back. -/
def orUnknown (fallbackName : String) : Option String → String
  | none => fallbackName
  | some t => if t = "" then fallbackName else t

/-- The `Citation(...)` constructed in `_extract_citations`. -/
def mkCitation (num : Nat) (chunk : RetrievalResult) : Citation :=
  { citation_id := num
    document_id := chunk.document_id
    chunk_id := some chunk.chunk_id
    title := orUnknown "Unknown" chunk.document_title
    excerpt := excerptOf chunk.content
    page := chunk.page_number
    confidence := chunk.score }

/-- `CitationAwareSynthesizer._extract_citations(answer, citation_map, ...)`:
collect the distinct bracketed numbers of the answer, walk them in ascending
order, and emit one Citation for each number present in the citation map. -/
def extractCitations (answer : List Char)
    (cmap : List (Nat × RetrievalResult)) : List Citation :=
  let used := (findCitationNums answer).dedup
  (sortAsc used).filterMap (fun num =>
    (alGet num cmap).map (fun chunk => mkCitation num chunk))

/-- One `f"[{i}] {title}{section}{page}:\n{chunk.content}\n"` block of
`_format_context`. -/
def formatContextPart (i : Nat) (chunk : RetrievalResult) : List Char :=
  let title := orUnknown "Unknown Document" chunk.document_title
  let sec := match chunk.sectionName with
    | none => []
    | some s => if s = "" then [] else (" - " ++ s).toList
  let page := match chunk.page_number with
    | none => []
    | some p => if p = 0 then [] else (" (p. " ++ toString p ++ ")").toList
  ("[" ++ toString i ++ "] " ++ title).toList ++ sec ++ page ++
    ":\n".toList ++ chunk.content ++ "\n".toList

/-- `"\n".join(formatted_parts)` over the numbered context blocks. -/
def joinNl : List (List Char) → List Char
  | [] => []
  | [p] => p
  | p :: rest => p ++ '\n' :: joinNl rest

/-- `CitationAwareSynthesizer._format_context(context)`. -/
def formatContext (context : List RetrievalResult) :
    List Char × List (Nat × RetrievalResult) :=
  (joinNl ((citationMap context).map (fun p => formatContextPart p.1 p.2)),
   citationMap context)

/-- The fixed fallback answer returned on empty context. -/
def insufficientInfoAnswer : String :=
  "I don" ++ String.singleton apos ++
    "t have enough information to answer this question. " ++
    "Please try rephrasing or provide more context."

/-- `CitationAwareSynthesizer._build_prompt(query, context)`. -/
def buildPrompt (query formattedContext : List Char) : List Char :=
  ("You are a scientific research assistant. Answer the user" ++
    String.singleton apos ++
    "s question based ONLY on the provided context. Follow these rules:\n\n" ++
    "1. Use inline citations [1], [2], etc. to reference your sources\n" ++
    "2. If the context doesn" ++ String.singleton apos ++
    "t contain enough information, say so clearly\n" ++
    "3. Be precise and scientific - avoid speculation\n" ++
    "4. Synthesize information from multiple sources when relevant\n" ++
    "5. Use direct quotes sparingly, preferring paraphrased summaries\n\n" ++
    "CONTEXT:\n").toList ++ formattedContext ++
  "\n\nQUESTION: ".toList ++ query ++
  "\n\nANSWER (with citations):".toList

/-- `CitationAwareSynthesizer.synthesize(query, context, ...)`.  An empty
context short-circuits to the fixed insufficient-information result without
consulting the LLM oracle; otherwise one completion request is sent and its
answer is post-processed into citations, with confidence
`min(1, len(citations) / max(1, len(context) // 2))`. -/
def synthesize (llm : List Char → Option (List Char × Nat × Nat))
    (query : List Char) (context : List RetrievalResult) :
    Option SynthesisResult :=
  if context = [] then
    some { answer := insufficientInfoAnswer.toList
           citations := []
           sources_used := 0
           confidence := 0 }
  else
    let (formatted, cmap) := formatContext context
    let prompt := buildPrompt query formatted
    match llm prompt with
    | none => none
    | some (answer, outTokens, inTokens) =>
        let citations := extractCitations answer cmap
        let confidence :=
          min 1 ((citations.length : ℚ) / ((max 1 (context.length / 2) : Nat) : ℚ))
        some { answer := answer
               citations := citations
               sources_used := citations.length
               confidence := confidence
               tokens_used := outTokens
               input_tokens := inTokens }

/-! ## Literature aggregation: deduplication and merging

Embedding of `LiteratureAggregator._deduplicate_results` and `_merge_results`
(`aria/connectors/aggregator.py`), over the `LiteratureResult` dataclass of
`aria/connectors/base.py`.  Metadata dict values are opaque to the merge
logic except for the `sources` list it writes, so they are modelled by a sum
of a raw string payload and a string list. -/

inductive MetaVal where
  | str (s : String) : MetaVal
  | strList (l : List String) : MetaVal
deriving DecidableEq, Repr

structure LiteratureResult where
  id : String
  title : String
  abstract : Option String := none
  authors : List String := []
  year : Option Int := none
  journal : Option String := none
  doi : Option String := none
  url : Option String := none
  source : String := ""
  score : ℚ := 0
  metadata : List (String × MetaVal) := []
deriving DecidableEq, Repr

/-- Python truthiness of `result.doi` (`None` and `""` are falsy). -/
def hasDoi (r : LiteratureResult) : Bool := r.doi.getD "" ≠ ""

/-- The grouping key `result.doi.lower()`. -/
def doiKey (r : LiteratureResult) : List Char :=
  lowerChars (r.doi.getD "").toList

/-- The fallback key `result.title.lower().strip()[:100]`. -/
def titleKey (r : LiteratureResult) : List Char :=
  (trimChars (lowerChars r.title.toList)).take 100

/-- Python truthiness of an optional string field. -/
def truthyStr : Option String → Bool
  | none => false
  | some s => s ≠ ""

/-- `len` of an optional abstract, `0` for `None` (only compared when the
Python code has established truthiness, where it agrees with `len`). -/
def absLen : Option String → Nat
  | none => 0
  | some s => s.length

/-- The body of the `for result in results[1:]` merge loop of
`LiteratureAggregator._merge_results`: prefer a longer truthy abstract,
prefer a strictly longer author list, keep the maximum score, and update the
metadata dict from truthy metadata. -/
def mergeStep (merged r : LiteratureResult) : LiteratureResult :=
  let m1 := if truthyStr r.abstract &&
      (!truthyStr merged.abstract || absLen merged.abstract < absLen r.abstract)
    then { merged with abstract := r.abstract } else merged
  let m2 := if m1.authors.length < r.authors.length
    then { m1 with authors := r.authors } else m1
  let m3 := { m2 with score := max m2.score r.score }
  if r.metadata = [] then m3
  else { m3 with metadata := alUpdate m3.metadata r.metadata }

/-- `LiteratureAggregator._merge_results(results)` for the nonempty group
`g0 :: rest`: a single-record group is returned unchanged (no `sources`
entry); otherwise the merge loop folds over the tail and the metadata gains
a `sources` list naming every contributing record's source. -/
def mergeResults (g0 : LiteratureResult) (rest : List LiteratureResult) :
    LiteratureResult :=
  if rest = [] then g0
  else
    let merged := rest.foldl mergeStep g0
    let sources := (g0 :: rest).map (fun r => r.source)
    { merged with
      metadata := alSet "sources" (MetaVal.strList sources) merged.metadata }

/-- One step of the grouping loop of `_deduplicate_results`: a record with a
truthy DOI is appended to its `by_doi` group, the rest collect into
`no_doi`. -/
def groupStep
    (acc : List (List Char × List LiteratureResult) × List LiteratureResult)
    (r : LiteratureResult) :
    List (List Char × List LiteratureResult) × List LiteratureResult :=
  if hasDoi r then (alAppendGroup (doiKey r) r acc.1, acc.2)
  else (acc.1, acc.2 ++ [r])

/-- The grouping loop of `_deduplicate_results`: records with a truthy DOI go
into the `by_doi` dict (keyed by lower-cased DOI, insertion ordered, appended
in input order); the rest collect into `no_doi`. -/
def groupByDoi (results : List LiteratureResult) :
    List (List Char × List LiteratureResult) × List LiteratureResult :=
  results.foldl groupStep ([], [])

/-- Merging one `by_doi` group (`_merge_results` applied to the group list;
groups are built nonempty, the `none` branch is unreachable). -/
def mergeGroup (p : List Char × List LiteratureResult) :
    Option LiteratureResult :=
  match p.2 with
  | [] => none
  | g0 :: rest => some (mergeResults g0 rest)

/-- Well-formedness of the `by_doi` dict as built by the grouping loop:
distinct keys, nonempty groups, and every group member carries a truthy DOI
whose lower-cased form is the group key. -/
def GoodGroups (d : List (List Char × List LiteratureResult)) : Prop :=
  (d.map (fun p => p.1)).Nodup ∧
  ∀ p ∈ d, p.2 ≠ [] ∧ ∀ r ∈ p.2, hasDoi r = true ∧ doiKey r = p.1

/-- The `title_seen` loop over DOI-less records: the first record carrying
each title key is kept as-is, later records with a seen key are dropped. -/
def dedupByTitle (seen : List (List Char)) :
    List LiteratureResult → List LiteratureResult
  | [] => []
  | r :: rest =>
      if seen.contains (titleKey r) then dedupByTitle seen rest
      else r :: dedupByTitle (titleKey r :: seen) rest

/-- `LiteratureAggregator._deduplicate_results(results)`: merge each DOI
group, then append the title-deduplicated DOI-less records. -/
def deduplicateResults (results : List LiteratureResult) :
    List LiteratureResult :=
  ((groupByDoi results).1.filterMap mergeGroup) ++
    dedupByTitle [] (groupByDoi results).2

/-! ## Semantic chunking

Embedding of `SemanticChunker` (`aria/rag/chunking/semantic.py`).  The
tiktoken encoder is external and deterministic; it enters the embedding as a
token-counting function `tok` on sentence strings (`count_tokens`).  `Chunk`
mirrors the chunk record constructed by `_chunk_text`; character offsets are
integers as in Python. -/

structure Chunk where
  content : List Char
  chunk_index : Nat
  token_count : Nat
  sectionName : Option String := none
  start_char : Int
  end_char : Int
deriving DecidableEq, Repr

/-- Scanner for `SemanticChunker._split_sentences` step 1: `re.split` on
`(?<=[.!?])\s+(?=[A-Z])`.  A separator is a maximal nonempty whitespace run
preceded by sentence-ending punctuation and followed by an ASCII capital;
the run is removed and the text cut there.  `cur` is the piece in progress;
`run = some ws` means `ws` is a whitespace run in progress that started
immediately after sentence-ending punctuation (a separator candidate).  The
candidate becomes a cut when the first character after it is a capital,
falls back into the piece otherwise, and a run not opened right after
`[.!?]` is appended to the piece character by character. -/
def sentAux (cur : List Char) (run : Option (List Char)) :
    List Char → List (List Char)
  | [] =>
      match run with
      | none => [cur]
      | some ws => [cur ++ ws]
  | c :: rest =>
      match run with
      | none =>
          if isWsC c then
            match cur.getLast? with
            | some d =>
                if isEndC d then sentAux cur (some [c]) rest
                else sentAux (cur ++ [c]) none rest
            | none => sentAux (cur ++ [c]) none rest
          else sentAux (cur ++ [c]) none rest
      | some ws =>
          if isWsC c then sentAux cur (some (ws ++ [c])) rest
          else if isUpperC c then cur :: sentAux [c] none rest
          else sentAux (cur ++ ws ++ [c]) none rest

/-- `SemanticChunker._split_sentences`, step 1 (the raw regex split). -/
def sentSplit (l : List Char) : List (List Char) := sentAux [] none l

/-- `SemanticChunker._split_sentences`, step 2: strip each piece and drop
the empty ones. -/
def splitSentences (text : List Char) : List (List Char) :=
  ((sentSplit text).map trimChars).filter (fun s => !s.isEmpty)

/-- The `for sentence in reversed(sentences)` loop of
`SemanticChunker._get_overlap`, with its `break` on the first sentence that
does not fit; `insert(0, sentence)` is prepending to the accumulator. -/
def overlapLoop (tok : List Char → Nat) (budget : Nat)
    (acc : List (List Char)) (tks : Nat) :
    List (List Char) → List (List Char) × Nat
  | [] => (acc, tks)
  | s :: rest =>
      if tks + tok s ≤ budget then
        overlapLoop tok budget (s :: acc) (tks + tok s) rest
      else (acc, tks)

/-- `SemanticChunker._get_overlap(sentences)`: trailing sentences taken in
reverse until the overlap budget is hit, joined back in original order. -/
def getOverlap (tok : List Char → Nat) (budget : Nat)
    (sentences : List (List Char)) : List Char × Nat :=
  if sentences = [] then ([], 0)
  else
    let (overlapSentences, tks) := overlapLoop tok budget [] 0 sentences.reverse
    (joinSp overlapSentences, tks)

/-- The loop state of `SemanticChunker._chunk_text`: the emitted chunks, the
current sentence buffer, its token count, the running character offset, and
the next chunk index. -/
structure ChunkState where
  chunks : List Chunk
  current_chunk : List (List Char)
  current_tokens : Nat
  current_start : Int
  chunk_index : Nat
deriving Repr

/-- One iteration of the `for sentence in sentences` loop of `_chunk_text`:
emit the buffer as a chunk when the next sentence would overflow `chunk_size`
(seeding the fresh buffer with the overlap window), then append the
sentence. -/
def chunkStep (tok : List Char → Nat) (chunk_size chunk_overlap : Nat)
    (sectionName : Option String) (st : ChunkState) (sentence : List Char) :
    ChunkState :=
  let sentenceTokens := tok sentence
  let st1 :=
    if chunk_size < st.current_tokens + sentenceTokens ∧
        st.current_chunk ≠ [] then
      let chunkText := joinSp st.current_chunk
      let emitted : Chunk :=
        { content := chunkText
          chunk_index := st.chunk_index
          token_count := st.current_tokens
          sectionName := sectionName
          start_char := st.current_start
          end_char := st.current_start + chunkText.length }
      let (overlapText, overlapTokens) :=
        getOverlap tok chunk_overlap st.current_chunk
      { chunks := st.chunks ++ [emitted]
        current_chunk := if overlapText ≠ [] then [overlapText] else []
        current_tokens := overlapTokens
        current_start :=
          st.current_start + chunkText.length - overlapText.length
        chunk_index := st.chunk_index + 1 }
    else st
  { st1 with
    current_chunk := st1.current_chunk ++ [sentence]
    current_tokens := st1.current_tokens + sentenceTokens }

/-- The trailing flush of `_chunk_text` (`if current_chunk:` after the
loop): a nonempty buffer is emitted as one final chunk. -/
def chunkFinish (sectionName : Option String) (st : ChunkState) :
    List Chunk :=
  if st.current_chunk ≠ [] then
    st.chunks ++
      [{ content := joinSp st.current_chunk
         chunk_index := st.chunk_index
         token_count := st.current_tokens
         sectionName := sectionName
         start_char := st.current_start
         end_char := st.current_start + (joinSp st.current_chunk).length }]
  else st.chunks

/-- `SemanticChunker._chunk_text(text, section_name, start_offset)`: fold the
loop over the split sentences, then flush the trailing nonempty buffer. -/
def chunkText (tok : List Char → Nat) (chunk_size chunk_overlap : Nat)
    (text : List Char) (sectionName : Option String) (start_offset : Int) :
    List Chunk :=
  chunkFinish sectionName
    ((splitSentences text).foldl
      (chunkStep tok chunk_size chunk_overlap sectionName)
      { chunks := [], current_chunk := [], current_tokens := 0
        current_start := start_offset, chunk_index := 0 })

/-- `SemanticChunker.chunk(text)` on a document without supplied section
structure: `_chunk_simple`, i.e. `_chunk_text` with no section name and
offset zero. -/
def chunkDocument (tok : List Char → Nat) (chunk_size chunk_overlap : Nat)
    (text : List Char) : List Chunk :=
  chunkText tok chunk_size chunk_overlap text none 0

/-! ## Example fixtures for the witnesses

Concrete inputs taken from the spec's testable-property examples. -/

/-- Concise constructor for retrieval-result fixtures. -/
def rrOf (cid : String) (c : String) (sc : ℚ) : RetrievalResult :=
  { chunk_id := cid, document_id := "doc", content := c.toList, score := sc }

def semA : RetrievalResult := rrOf "A" "alpha content" 1
def semB : RetrievalResult := rrOf "B" "beta content" (9/10)
def kwB : RetrievalResult := rrOf "B" "beta content" 1
def kwC : RetrievalResult := rrOf "C" "gamma content" (1/2)

def ctxA : RetrievalResult := rrOf "cA" "alpha chunk content" 1
def ctxB : RetrievalResult := rrOf "cB" "beta chunk content" 1
def ctxC : RetrievalResult := rrOf "cC" "gamma chunk content" 1

/-- The spec's citation-extraction example answer: references `[1]` and `[3]`
twice each and `[9]` once. -/
def exampleAnswer : String :=
  "Result [1] holds [3]; again [1] and [3] but [9] is dropped."

/-- A candidate row about glass fiber optics (spec BM25 example, record A). -/
def rowGlass : KwRow :=
  { id := "A", document_id := "d1", content := "glass fiber optics advances".toList
    token_count := 4, document_title := some "Glass" }

/-- A candidate row about unrelated biology (spec BM25 example, record B). -/
def rowBio : KwRow :=
  { id := "B", document_id := "d2", content := "unrelated biology text".toList
    token_count := 3, document_title := some "Bio" }

/-- A placeholder logarithm used to instantiate the abstract `lg` parameter
in witnesses: positive on arguments greater than one, like `math.log`. -/
def lgW (x : ℚ) : ℚ := x - 1

def litR1 : LiteratureResult :=
  { id := "r1", title := "Paper One", abstract := some "short"
    authors := ["a"], doi := some "10.1/X", source := "pubmed", score := 7/10
    metadata := [("k1", MetaVal.str "v1")] }

def litR2 : LiteratureResult :=
  { id := "r2", title := "Paper 1", abstract := some "much longer text"
    authors := ["a", "b"], doi := some "10.1/x", source := "arxiv", score := 9/10
    metadata := [("k2", MetaVal.str "v2")] }

def litT1 : LiteratureResult :=
  { id := "t1", title := "Same Title Here", source := "pubmed" }

def litT2 : LiteratureResult :=
  { id := "t2", title := "same title here  ", source := "arxiv" }

def litT3 : LiteratureResult :=
  { id := "t3", title := "A Different Title", source := "arxiv" }

end Aria

namespace Aria

/-! ## Helper lemmas: stable descending sort -/

theorem mem_insertDesc {α : Type} (key : α → ℚ) (x : α) (l : List α) (a : α) :
    a ∈ insertDesc key x l ↔ a = x ∨ a ∈ l := by
  induction l with
  | nil => simp [insertDesc]
  | cons y ys ih =>
      simp only [insertDesc]
      split
      · simp [List.mem_cons]
      · simp only [List.mem_cons, ih]
        tauto

theorem mem_sortDesc {α : Type} (key : α → ℚ) (l : List α) (a : α) :
    a ∈ sortDesc key l ↔ a ∈ l := by
  induction l with
  | nil => simp [sortDesc]
  | cons x xs ih => simp [sortDesc, mem_insertDesc, ih]

theorem pairwise_insertDesc {α : Type} (key : α → ℚ) (S : α → α → Prop)
    (x : α) (l : List α) (hl : l.Pairwise S)
    (hS : ∀ a b, S a b → key b ≤ key a)
    (hx1 : ∀ y ∈ l, key y ≤ key x → S x y)
    (hx2 : ∀ y ∈ l, ¬ key y ≤ key x → S y x) :
    (insertDesc key x l).Pairwise S := by
  induction l with
  | nil => simp [insertDesc]
  | cons y ys ih =>
      rw [List.pairwise_cons] at hl
      obtain ⟨hy, hys⟩ := hl
      simp only [insertDesc]
      split
      · rename_i hkey
        refine List.Pairwise.cons ?_ (List.Pairwise.cons hy hys)
        intro z hz
        rcases List.mem_cons.mp hz with hz | hz
        · subst hz
          exact hx1 z (List.mem_cons_self _ _) hkey
        · exact hx1 z (List.mem_cons_of_mem _ hz)
            (le_trans (hS y z (hy z hz)) hkey)
      · rename_i hkey
        refine List.Pairwise.cons ?_ ?_
        · intro z hz
          rcases (mem_insertDesc key x ys z).mp hz with hz | hz
          · exact hz ▸ hx2 y (List.mem_cons_self _ _) hkey
          · exact hy z hz
        · exact ih hys
            (fun z hz => hx1 z (List.mem_cons_of_mem _ hz))
            (fun z hz => hx2 z (List.mem_cons_of_mem _ hz))

/-- Main property of `sortDesc`: descending in the key, and any relation `R`
holding pairwise on the input (in input order) still holds on equal-keyed
pairs of the output — i.e. the sort is stable. -/
theorem pairwise_sortDesc {α : Type} (key : α → ℚ) (R : α → α → Prop)
    (l : List α) (hl : l.Pairwise R) :
    (sortDesc key l).Pairwise
      (fun a b => key b ≤ key a ∧ (key b < key a ∨ R a b)) := by
  induction l with
  | nil => simp [sortDesc]
  | cons x xs ih =>
      rw [List.pairwise_cons] at hl
      obtain ⟨hx, hxs⟩ := hl
      refine pairwise_insertDesc key _ x (sortDesc key xs) (ih hxs)
        (fun a b h => h.1) ?_ ?_
      · intro y hy hkey
        refine ⟨hkey, ?_⟩
        rcases lt_or_eq_of_le hkey with h | h
        · exact Or.inl h
        · exact Or.inr (hx y ((mem_sortDesc key xs y).mp hy))
      · intro y hy hkey
        exact ⟨le_of_not_le hkey, Or.inl (lt_of_not_le hkey)⟩

theorem pairwise_true {α : Type} (l : List α) :
    l.Pairwise (fun _ _ => True) := by
  induction l with
  | nil => exact List.Pairwise.nil
  | cons a as ih => exact List.Pairwise.cons (fun _ _ => trivial) ih

/-- The head of a stable descending sort carries the greatest key. -/
theorem sortDesc_head_max {α : Type} (key : α → ℚ) (l : List α) (h : α)
    (t : List α) (heq : sortDesc key l = h :: t) :
    h ∈ l ∧ ∀ y ∈ l, key y ≤ key h := by
  have hmem : h ∈ l := by
    have : h ∈ sortDesc key l := heq ▸ List.mem_cons_self _ _
    exact (mem_sortDesc key l h).mp this
  refine ⟨hmem, ?_⟩
  intro y hy
  have hp := pairwise_sortDesc key (fun _ _ => True) l (pairwise_true l)
  rw [heq, List.pairwise_cons] at hp
  have hy2 : y ∈ h :: t := heq ▸ (mem_sortDesc key l y).mpr hy
  rcases List.mem_cons.mp hy2 with h2 | h2
  · exact le_of_eq (congrArg key h2)
  · exact (hp.1 y h2).1

/-- A nonempty list sorts to a nonempty list. -/
theorem sortDesc_ne_nil {α : Type} (key : α → ℚ) (l : List α) (hne : l ≠ []) :
    sortDesc key l ≠ [] := by
  intro hcon
  rcases l with _ | ⟨x, xs⟩
  · exact hne rfl
  · have : x ∈ sortDesc key (x :: xs) :=
      (mem_sortDesc key _ x).mpr (List.mem_cons_self _ _)
    rw [hcon] at this
    exact List.not_mem_nil x this

/-! ## Helper lemmas: ascending sort on naturals -/

theorem mem_insertAsc (n : Nat) (l : List Nat) (a : Nat) :
    a ∈ insertAsc n l ↔ a = n ∨ a ∈ l := by
  induction l with
  | nil => simp [insertAsc]
  | cons m ms ih =>
      simp only [insertAsc]
      split
      · simp [List.mem_cons]
      · simp only [List.mem_cons, ih]
        tauto

theorem perm_insertAsc (n : Nat) (l : List Nat) :
    (insertAsc n l).Perm (n :: l) := by
  induction l with
  | nil => simp [insertAsc]
  | cons m ms ih =>
      simp only [insertAsc]
      split
      · exact List.Perm.refl _
      · exact ((ih.cons m).trans (List.Perm.swap n m ms))

theorem perm_sortAsc (l : List Nat) : (sortAsc l).Perm l := by
  induction l with
  | nil => simp [sortAsc]
  | cons n ns ih =>
      exact (perm_insertAsc n (sortAsc ns)).trans (ih.cons n)

theorem pairwise_le_insertAsc (n : Nat) (l : List Nat)
    (hl : l.Pairwise (· ≤ ·)) : (insertAsc n l).Pairwise (· ≤ ·) := by
  induction l with
  | nil => simp [insertAsc]
  | cons m ms ih =>
      rw [List.pairwise_cons] at hl
      obtain ⟨hm, hms⟩ := hl
      simp only [insertAsc]
      split
      · rename_i hle
        refine List.Pairwise.cons ?_ (List.Pairwise.cons hm hms)
        intro z hz
        rcases List.mem_cons.mp hz with hz | hz
        · omega
        · exact le_trans hle (hm z hz)
      · rename_i hle
        refine List.Pairwise.cons ?_ (ih hms)
        intro z hz
        rcases (mem_insertAsc n ms z).mp hz with hz | hz
        · omega
        · exact hm z hz

theorem pairwise_le_sortAsc (l : List Nat) :
    (sortAsc l).Pairwise (· ≤ ·) := by
  induction l with
  | nil => simp [sortAsc]
  | cons n ns ih => exact pairwise_le_insertAsc n (sortAsc ns) ih

/-- Sorting the deduplicated number list yields a strictly increasing list. -/
theorem pairwise_lt_sortAsc_dedup (l : List Nat) :
    (sortAsc l.dedup).Pairwise (· < ·) := by
  have hnd : (sortAsc l.dedup).Nodup :=
    ((perm_sortAsc l.dedup).nodup_iff).mpr (List.nodup_dedup l)
  have hle := pairwise_le_sortAsc l.dedup
  exact (hle.and hnd).imp (fun h => lt_of_le_of_ne h.1 h.2)

/-! ## Helper lemmas: association lists -/

theorem alGet_eq_none_iff {κ : Type} [DecidableEq κ] {β : Type} (k : κ)
    (d : List (κ × β)) :
    alGet k d = none ↔ d.any (fun p => p.1 = k) = false := by
  induction d with
  | nil => simp [alGet]
  | cons p rest ih =>
      by_cases hp : p.1 = k
      · simp [alGet, hp]
      · simp [alGet, hp, ih]

theorem alGet_append {κ : Type} [DecidableEq κ] {β : Type} (k : κ)
    (d e : List (κ × β)) :
    alGet k (d ++ e) =
      match alGet k d with
      | some v => some v
      | none => alGet k e := by
  induction d with
  | nil => simp [alGet]
  | cons p rest ih =>
      by_cases hp : p.1 = k
      · simp [alGet, hp]
      · simp [alGet, hp, ih]

theorem any_key_iff_isSome {κ : Type} [DecidableEq κ] {β : Type} (k : κ)
    (d : List (κ × β)) :
    d.any (fun p => p.1 = k) = (alGet k d).isSome := by
  induction d with
  | nil => simp [alGet]
  | cons p rest ih =>
      by_cases hp : p.1 = k
      · simp [alGet, hp]
      · simp [alGet, hp, ih]

theorem alGet_map_set {κ : Type} [DecidableEq κ] {β : Type} (k k' : κ)
    (v : β) (d : List (κ × β)) :
    alGet k (d.map (fun p => if p.1 = k' then (k', v) else p)) =
      if k' = k ∧ (alGet k' d).isSome then some v else alGet k d := by
  induction d with
  | nil => simp [alGet]
  | cons p rest ih =>
      by_cases hp : p.1 = k'
      · by_cases hk : k' = k
        · have hpk : p.1 = k := hp.trans hk
          simp [alGet, hp, hk, hpk]
        · have hpk : ¬ p.1 = k := fun h => hk (hp.symm.trans h)
          simp [alGet, hp, hk, hpk, ih]
      · by_cases hpk : p.1 = k
        · have hk : ¬ k' = k := fun h => hp (hpk.trans h.symm)
          have hk2 : ¬ k = k' := fun h => hk h.symm
          simp [alGet, hp, hpk, hk, hk2]
        · simp [alGet, hp, hpk, ih]

theorem alGet_alSet {κ : Type} [DecidableEq κ] {β : Type} (k k' : κ)
    (v : β) (d : List (κ × β)) :
    alGet k (alSet k' v d) = if k' = k then some v else alGet k d := by
  unfold alSet
  by_cases hany : d.any (fun p => p.1 = k')
  · rw [if_pos hany, alGet_map_set]
    have hs : (alGet k' d).isSome := by rw [← any_key_iff_isSome]; exact hany
    by_cases hk : k' = k
    · rcases Option.isSome_iff_exists.mp (hk ▸ hs) with ⟨w, hw⟩
      simp [hk, hw, hk ▸ hs]
    · simp [hk]
  · have hf : d.any (fun p => p.1 = k') = false := by
      cases hc : d.any (fun p => p.1 = k')
      · rfl
      · exact absurd hc hany
    rw [if_neg hany, alGet_append]
    by_cases hk : k' = k
    · have hnone : alGet k d = none := by
        rw [alGet_eq_none_iff]
        rw [← hk]
        exact hf
      simp [hnone, alGet, hk]
    · cases halt : alGet k d with
      | none => simp [alGet, hk]
      | some w => simp [halt, hk]

theorem alGet_alSetIfAbsent {κ : Type} [DecidableEq κ] {β : Type} (k k' : κ)
    (v : β) (d : List (κ × β)) :
    alGet k (alSetIfAbsent k' v d) =
      match alGet k d with
      | some w => some w
      | none => if k' = k then some v else none := by
  unfold alSetIfAbsent
  by_cases hany : d.any (fun p => p.1 = k')
  · rw [if_pos hany]
    by_cases hk : k' = k
    · have hs : (alGet k' d).isSome := by rw [← any_key_iff_isSome]; exact hany
      rw [hk] at hs
      rcases Option.isSome_iff_exists.mp hs with ⟨w, hw⟩
      simp [hw]
    · cases halt : alGet k d with
      | none => simp [hk]
      | some w => simp
  · have hf : d.any (fun p => p.1 = k') = false := by
      cases hc : d.any (fun p => p.1 = k')
      · rfl
      · exact absurd hc hany
    rw [if_neg hany, alGet_append]
    by_cases hk : k' = k
    · have hnone : alGet k d = none := by
        rw [alGet_eq_none_iff, ← hk]
        exact hf
      simp [hnone, alGet, hk]
    · cases halt : alGet k d with
      | none => simp [alGet, hk, halt]
      | some w => simp [halt]

theorem alGet_map_add {κ : Type} [DecidableEq κ] (k k' : κ) (v : ℚ)
    (d : List (κ × ℚ)) :
    alGet k (d.map (fun p => if p.1 = k' then (p.1, p.2 + v) else p)) =
      if k' = k then (alGet k d).map (fun w => w + v) else alGet k d := by
  induction d with
  | nil => simp [alGet]
  | cons p rest ih =>
      by_cases hp : p.1 = k'
      · by_cases hk : k' = k
        · have hpk : p.1 = k := hp.trans hk
          simp [alGet, hp, hk, hpk]
        · have hpk : ¬ p.1 = k := fun h => hk (hp.symm.trans h)
          simp [alGet, hp, hk, hpk, ih]
      · by_cases hpk : p.1 = k
        · have hk : ¬ k' = k := fun h => hp (hpk.trans h.symm)
          have hk2 : ¬ k = k' := fun h => hk h.symm
          simp [alGet, hp, hpk, hk, hk2]
        · simp [alGet, hp, hpk, ih]

/-- Effect of one score accumulation on the value read back (`0` default). -/
theorem valOf_alAddQ {κ : Type} [DecidableEq κ] (k k' : κ) (v : ℚ)
    (d : List (κ × ℚ)) :
    ((alGet k (alAddQ k' v d)).getD 0) =
      (alGet k d).getD 0 + (if k' = k then v else 0) := by
  unfold alAddQ
  by_cases hany : d.any (fun p => p.1 = k')
  · rw [if_pos hany, alGet_map_add]
    by_cases hk : k' = k
    · have hs : (alGet k' d).isSome := by rw [← any_key_iff_isSome]; exact hany
      rw [hk] at hs
      rcases Option.isSome_iff_exists.mp hs with ⟨w, hw⟩
      simp [hw, hk]
    · simp [hk]
  · have hf : d.any (fun p => p.1 = k') = false := by
      cases hc : d.any (fun p => p.1 = k')
      · rfl
      · exact absurd hc hany
    rw [if_neg hany, alGet_append]
    by_cases hk : k' = k
    · have hnone : alGet k d = none := by
        rw [alGet_eq_none_iff, ← hk]
        exact hf
      simp [hnone, alGet, hk]
    · cases halt : alGet k d with
      | none => simp [alGet, hk, halt]
      | some w => simp [halt, hk]

/-! ## Claim C3: empty-context synthesis -/

/-- C3.  For every query, `synthesize(query, [])` returns a `SynthesisResult`
whose answer is the fixed insufficient-information string, whose citation
list is empty, whose `sources_used` is 0, and whose confidence is 0.0.  The
LLM oracle `llm` is universally quantified and never consulted — the result
is the same for every oracle, including the always-failing one — so the
empty-context path performs no LLM call. -/
theorem synthesize_empty_context_short_circuits
    (llm : List Char → Option (List Char × Nat × Nat)) (query : List Char) :
    synthesize llm query [] =
      some { answer := insufficientInfoAnswer.toList
             citations := []
             sources_used := 0
             confidence := 0
             tokens_used := 0
             input_tokens := 0 } := by
  rfl

/-! ## Claim C4: reranker fallback on unavailable model -/

/-- C4.  For every query, candidate list and `top_k`, when the cross-encoder
model cannot be loaded (`_load_model` hits its `ImportError` branch and
stores the `"fallback"` sentinel), `rerank` is the total fallback function:
it returns the candidates stably sorted in descending order of their
pre-existing fused score, truncated to `top_k`, with every score (and every
other field) unchanged; no exception reaches the caller. -/
theorem rerank_fallback_uses_fused_scores
    (predict : List Char → List Char → ℚ) (query : List Char)
    (results : List RetrievalResult) (top_k : Nat) :
    rerank (loadModel false predict) query results top_k =
      (sortDesc (fun r => r.score) results).take top_k := by
  by_cases hres : results = []
  · subst hres
    simp [rerank, loadModel, sortDesc]
  · simp [rerank, loadModel, hres]

/-! ## Helper lemmas: literature record merging -/

theorem string_length_zero_iff (s : String) : s.length = 0 ↔ s = "" := by
  cases s with
  | mk data =>
      show data.length = 0 ↔ String.mk data = String.mk []
      rw [List.length_eq_zero]
      constructor
      · intro h; rw [h]
      · intro h; cases h; rfl

theorem absLen_zero_of_not_truthy (o : Option String)
    (h : truthyStr o = false) : absLen o = 0 := by
  cases o with
  | none => rfl
  | some s =>
      simp only [truthyStr, ne_eq, decide_not, Bool.not_eq_false',
        decide_eq_true_eq] at h
      exact (string_length_zero_iff s).mpr h

/-- The merge loop body never touches the identifying fields. -/
theorem mergeStep_frame (m r : LiteratureResult) :
    (mergeStep m r).id = m.id ∧ (mergeStep m r).title = m.title ∧
    (mergeStep m r).year = m.year ∧ (mergeStep m r).journal = m.journal ∧
    (mergeStep m r).doi = m.doi ∧ (mergeStep m r).url = m.url ∧
    (mergeStep m r).source = m.source := by
  simp only [mergeStep]
  split_ifs <;> simp

theorem mergeStep_abstract (m r : LiteratureResult) :
    (mergeStep m r).abstract =
      if truthyStr r.abstract &&
          (!truthyStr m.abstract || absLen m.abstract < absLen r.abstract)
      then r.abstract else m.abstract := by
  simp only [mergeStep]
  split_ifs <;> simp_all

theorem mergeStep_absLen (m r : LiteratureResult) :
    absLen (mergeStep m r).abstract =
      max (absLen m.abstract) (absLen r.abstract) := by
  rw [mergeStep_abstract]
  by_cases hc : (truthyStr r.abstract &&
      (!truthyStr m.abstract || absLen m.abstract < absLen r.abstract)) = true
  · rw [if_pos hc]
    simp only [Bool.and_eq_true, Bool.or_eq_true, Bool.not_eq_true',
      decide_eq_true_eq] at hc
    rcases hc.2 with h | h
    · rw [absLen_zero_of_not_truthy m.abstract h]
      exact (Nat.max_eq_right (Nat.zero_le _)).symm
    · exact (Nat.max_eq_right (Nat.le_of_lt h)).symm
  · rw [if_neg hc]
    simp only [Bool.and_eq_true, Bool.or_eq_true, Bool.not_eq_true',
      decide_eq_true_eq, not_and, not_or, not_lt] at hc
    by_cases hr : truthyStr r.abstract = true
    · rcases hc hr with ⟨_, hle⟩
      exact (Nat.max_eq_left hle).symm
    · rw [absLen_zero_of_not_truthy r.abstract (by simpa using hr)]
      exact (Nat.max_eq_left (Nat.zero_le _)).symm

theorem mergeStep_authors_len (m r : LiteratureResult) :
    (mergeStep m r).authors.length =
      max m.authors.length r.authors.length := by
  simp only [mergeStep]
  split_ifs <;> simp_all <;> omega

theorem mergeStep_score (m r : LiteratureResult) :
    (mergeStep m r).score = max m.score r.score := by
  simp only [mergeStep]
  split_ifs <;> simp

theorem alUpdate_isSome {κ : Type} [DecidableEq κ] {β : Type} (k : κ)
    (d1 d2 : List (κ × β)) :
    (alGet k (alUpdate d1 d2)).isSome ↔
      (alGet k d1).isSome ∨ (alGet k d2).isSome := by
  induction d2 generalizing d1 with
  | nil => simp [alUpdate, alGet]
  | cons p rest ih =>
      show (alGet k (alUpdate (alSet p.1 p.2 d1) rest)).isSome ↔ _
      rw [ih]
      rw [alGet_alSet]
      by_cases hp : p.1 = k
      · simp [alGet, hp]
      · simp [alGet, hp]

theorem mergeStep_metadata_isSome (k : String) (m r : LiteratureResult) :
    (alGet k (mergeStep m r).metadata).isSome ↔
      (alGet k m.metadata).isSome ∨ (alGet k r.metadata).isSome := by
  simp only [mergeStep]
  split_ifs <;> simp_all [alGet, alUpdate_isSome]

theorem le_foldl_max {α : Type} [LinearOrder α] (l : List α) (a : α) :
    a ≤ l.foldl max a := by
  induction l generalizing a with
  | nil => exact le_refl a
  | cons x xs ih => exact le_trans (le_max_left a x) (ih (max a x))

theorem mem_le_foldl_max {α : Type} [LinearOrder α] :
    ∀ (l : List α) (a x : α), x ∈ l → x ≤ l.foldl max a := by
  intro l
  induction l with
  | nil => intro a x hx; cases hx
  | cons y ys ih =>
      intro a x hx
      rcases List.mem_cons.mp hx with h | h
      · subst h
        exact le_trans (le_max_right a x) (le_foldl_max ys (max a x))
      · exact ih (max a y) x h

theorem foldl_max_choice {α : Type} [LinearOrder α] :
    ∀ (l : List α) (a : α), l.foldl max a = a ∨ ∃ x ∈ l, l.foldl max a = x := by
  intro l
  induction l with
  | nil => intro a; exact Or.inl rfl
  | cons y ys ih =>
      intro a
      have hstep : (y :: ys).foldl max a = ys.foldl max (max a y) := rfl
      rcases ih (max a y) with h | ⟨x, hx, hf⟩
      · rcases max_choice a y with hm | hm
        · exact Or.inl (by rw [hstep, h, hm])
        · exact Or.inr ⟨y, List.mem_cons_self _ _, by rw [hstep, h, hm]⟩
      · exact Or.inr ⟨x, List.mem_cons_of_mem _ hx, by rw [hstep, hf]⟩

theorem foldl_mergeStep_frame (rest : List LiteratureResult)
    (m : LiteratureResult) :
    (rest.foldl mergeStep m).id = m.id ∧
    (rest.foldl mergeStep m).title = m.title ∧
    (rest.foldl mergeStep m).year = m.year ∧
    (rest.foldl mergeStep m).journal = m.journal ∧
    (rest.foldl mergeStep m).doi = m.doi ∧
    (rest.foldl mergeStep m).url = m.url ∧
    (rest.foldl mergeStep m).source = m.source := by
  induction rest generalizing m with
  | nil => exact ⟨rfl, rfl, rfl, rfl, rfl, rfl, rfl⟩
  | cons r rs ih =>
      have hstep := mergeStep_frame m r
      have hrec := ih (mergeStep m r)
      exact ⟨hrec.1.trans hstep.1, hrec.2.1.trans hstep.2.1,
        hrec.2.2.1.trans hstep.2.2.1, hrec.2.2.2.1.trans hstep.2.2.2.1,
        hrec.2.2.2.2.1.trans hstep.2.2.2.2.1,
        hrec.2.2.2.2.2.1.trans hstep.2.2.2.2.2.1,
        hrec.2.2.2.2.2.2.trans hstep.2.2.2.2.2.2⟩

theorem foldl_mergeStep_absLen (rest : List LiteratureResult)
    (m : LiteratureResult) :
    absLen (rest.foldl mergeStep m).abstract =
      (rest.map (fun r => absLen r.abstract)).foldl max
        (absLen m.abstract) := by
  induction rest generalizing m with
  | nil => rfl
  | cons r rs ih =>
      show absLen (rs.foldl mergeStep (mergeStep m r)).abstract = _
      rw [ih (mergeStep m r), mergeStep_absLen]
      rfl

theorem foldl_mergeStep_authorsLen (rest : List LiteratureResult)
    (m : LiteratureResult) :
    (rest.foldl mergeStep m).authors.length =
      (rest.map (fun r => r.authors.length)).foldl max
        m.authors.length := by
  induction rest generalizing m with
  | nil => rfl
  | cons r rs ih =>
      show (rs.foldl mergeStep (mergeStep m r)).authors.length = _
      rw [ih (mergeStep m r), mergeStep_authors_len]
      rfl

theorem foldl_mergeStep_score (rest : List LiteratureResult)
    (m : LiteratureResult) :
    (rest.foldl mergeStep m).score =
      (rest.map (fun r => r.score)).foldl max m.score := by
  induction rest generalizing m with
  | nil => rfl
  | cons r rs ih =>
      show (rs.foldl mergeStep (mergeStep m r)).score = _
      rw [ih (mergeStep m r), mergeStep_score]
      rfl

theorem foldl_mergeStep_metadata (k : String) (rest : List LiteratureResult)
    (m : LiteratureResult) :
    (alGet k (rest.foldl mergeStep m).metadata).isSome ↔
      (alGet k m.metadata).isSome ∨
        ∃ r ∈ rest, (alGet k r.metadata).isSome := by
  induction rest generalizing m with
  | nil => simp
  | cons r rs ih =>
      show (alGet k (rs.foldl mergeStep (mergeStep m r)).metadata).isSome ↔ _
      rw [ih (mergeStep m r), mergeStep_metadata_isSome]
      simp [List.mem_cons, or_assoc, exists_eq_or_imp]

/-! ## Claim C10: merge keeps the first record's identifying fields -/

/-- C10.  When two or more records sharing a DOI are merged, the merged
record's `id`, `title`, `year`, `journal`, `doi`, `url` and `source` fields
are exactly those of the first record of the group, whatever the later
records carry; only abstract, authors, score and metadata are merged. -/
theorem merge_preserves_first_record_fields (g0 : LiteratureResult)
    (rest : List LiteratureResult) (h : rest ≠ []) :
    (mergeResults g0 rest).id = g0.id ∧
    (mergeResults g0 rest).title = g0.title ∧
    (mergeResults g0 rest).year = g0.year ∧
    (mergeResults g0 rest).journal = g0.journal ∧
    (mergeResults g0 rest).doi = g0.doi ∧
    (mergeResults g0 rest).url = g0.url ∧
    (mergeResults g0 rest).source = g0.source := by
  unfold mergeResults
  rw [if_neg h]
  exact foldl_mergeStep_frame rest g0

/-- Witness for C10 at the spec's dedup-by-DOI example records. -/
theorem merge_preserves_first_record_fields_witness :
    [litR2] ≠ [] ∧
    (mergeResults litR1 [litR2]).doi = some "10.1/X" ∧
    (mergeResults litR1 [litR2]).id = "r1" ∧
    (mergeResults litR1 [litR2]).source = "pubmed" := by
  refine ⟨by simp, ?_⟩
  have h := merge_preserves_first_record_fields litR1 [litR2] (by simp)
  exact ⟨h.2.2.2.2.1, h.1, h.2.2.2.2.2.2⟩

/-! ## Claim C7: merged records carry the best information of the group -/

/-- C7.  For every group of two or more records sharing a DOI, the merged
record has an abstract of maximal length among the group, an author list of
maximal length, the maximum score, a metadata map whose keys (apart from the
written `sources` entry) are exactly the union of the group's metadata keys,
and a metadata `sources` entry listing the source tag of every contributing
record, of length equal to the group size. -/
theorem merge_takes_best_information (g0 : LiteratureResult)
    (rest : List LiteratureResult) (h : rest ≠ []) :
    (∀ r ∈ g0 :: rest,
      absLen r.abstract ≤ absLen (mergeResults g0 rest).abstract) ∧
    (∃ r ∈ g0 :: rest,
      absLen (mergeResults g0 rest).abstract = absLen r.abstract) ∧
    (∀ r ∈ g0 :: rest,
      r.authors.length ≤ (mergeResults g0 rest).authors.length) ∧
    (∃ r ∈ g0 :: rest,
      (mergeResults g0 rest).authors.length = r.authors.length) ∧
    (∀ r ∈ g0 :: rest, r.score ≤ (mergeResults g0 rest).score) ∧
    (∃ r ∈ g0 :: rest, (mergeResults g0 rest).score = r.score) ∧
    alGet "sources" (mergeResults g0 rest).metadata =
      some (MetaVal.strList ((g0 :: rest).map (fun r => r.source))) ∧
    ((g0 :: rest).map (fun r => r.source)).length = (g0 :: rest).length ∧
    (∀ k, k ≠ "sources" →
      ((alGet k (mergeResults g0 rest).metadata).isSome ↔
        ∃ r ∈ g0 :: rest, (alGet k r.metadata).isSome)) := by
  unfold mergeResults
  rw [if_neg h]
  simp only []
  refine ⟨?_, ?_, ?_, ?_, ?_, ?_, ?_, ?_, ?_⟩
  · intro r hr
    rw [foldl_mergeStep_absLen]
    rcases List.mem_cons.mp hr with hg | hg
    · subst hg
      exact le_foldl_max _ _
    · exact mem_le_foldl_max _ _ _ (List.mem_map_of_mem _ hg)
  · rw [foldl_mergeStep_absLen]
    rcases foldl_max_choice (rest.map (fun r => absLen r.abstract))
        (absLen g0.abstract) with hc | ⟨x, hx, hf⟩
    · exact ⟨g0, List.mem_cons_self _ _, hc⟩
    · rcases List.mem_map.mp hx with ⟨r, hr, hrx⟩
      exact ⟨r, List.mem_cons_of_mem _ hr, by rw [hf, hrx]⟩
  · intro r hr
    rw [foldl_mergeStep_authorsLen]
    rcases List.mem_cons.mp hr with hg | hg
    · subst hg
      exact le_foldl_max _ _
    · exact mem_le_foldl_max _ _ _ (List.mem_map_of_mem _ hg)
  · rw [foldl_mergeStep_authorsLen]
    rcases foldl_max_choice (rest.map (fun r => r.authors.length))
        g0.authors.length with hc | ⟨x, hx, hf⟩
    · exact ⟨g0, List.mem_cons_self _ _, hc⟩
    · rcases List.mem_map.mp hx with ⟨r, hr, hrx⟩
      exact ⟨r, List.mem_cons_of_mem _ hr, by rw [hf, hrx]⟩
  · intro r hr
    rw [foldl_mergeStep_score]
    rcases List.mem_cons.mp hr with hg | hg
    · subst hg
      exact le_foldl_max _ _
    · exact mem_le_foldl_max _ _ _ (List.mem_map_of_mem _ hg)
  · rw [foldl_mergeStep_score]
    rcases foldl_max_choice (rest.map (fun r => r.score))
        g0.score with hc | ⟨x, hx, hf⟩
    · exact ⟨g0, List.mem_cons_self _ _, hc⟩
    · rcases List.mem_map.mp hx with ⟨r, hr, hrx⟩
      exact ⟨r, List.mem_cons_of_mem _ hr, by rw [hf, hrx]⟩
  · rw [alGet_alSet]
    simp
  · simp
  · intro k hk
    rw [alGet_alSet, if_neg (fun hcon => hk hcon.symm)]
    rw [foldl_mergeStep_metadata]
    simp [List.mem_cons, exists_eq_or_imp]

/-- Witness for C7 at the spec's dedup-by-DOI example: R2's longer abstract,
R2's longer author list, the maximum score 0.9, and a two-element `sources`
list. -/
theorem merge_takes_best_information_witness :
    [litR2] ≠ [] ∧
    alGet "sources" (mergeResults litR1 [litR2]).metadata =
      some (MetaVal.strList ["pubmed", "arxiv"]) ∧
    (mergeResults litR1 [litR2]).abstract = some "much longer text" ∧
    (mergeResults litR1 [litR2]).authors = ["a", "b"] ∧
    (∀ r ∈ [litR1, litR2], r.score ≤ (mergeResults litR1 [litR2]).score) := by
  refine ⟨by simp, ?_, by rfl, by rfl, ?_⟩
  · have h :=
      (merge_takes_best_information litR1 [litR2] (by simp)).2.2.2.2.2.2.1
    simpa [litR1, litR2] using h
  · exact (merge_takes_best_information litR1 [litR2] (by simp)).2.2.2.2.1

/-! ## Helper lemmas: chunker -/

theorem overlapLoop_snd_le (tok : List Char → Nat) (budget : Nat) :
    ∀ (l acc : List (List Char)) (tks : Nat), tks ≤ budget →
      (overlapLoop tok budget acc tks l).2 ≤ budget := by
  intro l
  induction l with
  | nil => intro acc tks h; exact h
  | cons s rest ih =>
      intro acc tks h
      rw [overlapLoop]
      split
      · rename_i hfit
        exact ih _ _ hfit
      · exact h

/-! ## Claim C9: the overlap seed respects the overlap budget -/

/-- C9.  For every tokenizer, sentence list and overlap budget, the token
count returned with the overlap seed by `_get_overlap` is at most
`chunk_overlap` (so a freshly started buffer, whose `current_tokens` is set
to exactly this count, never begins over the overlap budget); in particular,
when the final trailing sentence alone exceeds the budget, the seed is empty
with token count zero. -/
theorem overlap_seed_within_budget (tok : List Char → Nat) (budget : Nat)
    (sentences : List (List Char)) :
    (getOverlap tok budget sentences).2 ≤ budget ∧
    (∀ init last, sentences = init ++ [last] → budget < tok last →
      getOverlap tok budget sentences = ([], 0)) := by
  constructor
  · unfold getOverlap
    split
    · simp
    · exact overlapLoop_snd_le tok budget _ [] 0 (Nat.zero_le _)
  · intro init last heq hlt
    subst heq
    unfold getOverlap
    rw [if_neg (by simp)]
    have hrev : (init ++ [last]).reverse = last :: init.reverse := by simp
    rw [hrev]
    rw [overlapLoop, if_neg (by omega)]
    rfl

/-- Witness for C9: a two-sentence buffer stays within a budget of 10, and a
single trailing 8-character sentence with budget 5 yields an empty seed. -/
theorem overlap_seed_within_budget_witness :
    (getOverlap (fun s => s.length) 10
      ["abc".toList, "defg".toList]).2 ≤ 10 ∧
    ["abcdefgh".toList] = [] ++ ["abcdefgh".toList] ∧
    5 < "abcdefgh".toList.length ∧
    getOverlap (fun s => s.length) 5 ["abcdefgh".toList] = ([], 0) := by
  refine ⟨(overlap_seed_within_budget _ 10 _).1, rfl, by decide, ?_⟩
  exact (overlap_seed_within_budget (fun s => s.length) 5 _).2
    [] "abcdefgh".toList rfl (by decide)

/-! ## Helper lemmas: sentence splitting -/

theorem isEndC_not_ws (c : Char) (h : isEndC c = true) : isWsC c = false := by
  simp only [isEndC, Bool.or_eq_true, decide_eq_true_eq] at h
  rcases h with (h | h) | h <;> subst h <;> rfl

theorem dropWhile_append_last (q : List Char) (c : Char)
    (hc : isWsC c = false) :
    ∃ q', (q ++ [c]).dropWhile isWsC = q' ++ [c] := by
  induction q with
  | nil => exact ⟨[], by simp [List.dropWhile, hc]⟩
  | cons a q' ih =>
      by_cases ha : isWsC a
      · simpa [List.dropWhile_cons, ha] using ih
      · exact ⟨a :: q', by simp [List.dropWhile_cons, ha]⟩

theorem trimChars_ne_nil_of_last (q : List Char) (c : Char)
    (hc : isWsC c = false) : trimChars (q ++ [c]) ≠ [] := by
  unfold trimChars
  obtain ⟨q', hq⟩ := dropWhile_append_last q c hc
  rw [hq]
  have hr : (q' ++ [c]).reverse = c :: q'.reverse := by simp
  rw [hr, List.dropWhile_cons, hc]
  simp

/-- Invariant induction for `sentSplit_shape` over the scanner state: when a
separator candidate is open, the piece in progress ends in sentence
punctuation; the scan always produces at least one piece, a lone piece
carries every remaining character, and the first of several pieces ends in
sentence punctuation. -/
theorem sentAuxShape : ∀ (input cur : List Char) (run : Option (List Char)),
    (∀ ws, run = some ws → ∃ q d, cur = q ++ [d] ∧ isEndC d = true) →
    ∃ p ps, sentAux cur run input = p :: ps ∧
      (ps = [] → p = cur ++ run.getD [] ++ input) ∧
      (ps ≠ [] → ∃ q d, p = q ++ [d] ∧ isEndC d = true) := by
  intro input
  induction input with
  | nil =>
      intro cur run hrun
      cases run with
      | none => exact ⟨cur, [], rfl, fun _ => by simp, fun h => absurd rfl h⟩
      | some ws =>
          exact ⟨cur ++ ws, [], rfl, fun _ => by simp, fun h => absurd rfl h⟩
  | cons c rest ih =>
      intro cur run hrun
      cases run with
      | none =>
          by_cases hws : isWsC c = true
          · cases hlast : cur.getLast? with
            | some d =>
                by_cases hend : isEndC d = true
                · have heq : sentAux cur none (c :: rest) =
                      sentAux cur (some [c]) rest := by
                    simp [sentAux, hws, hlast, hend]
                  have hcur : ∀ ws, some [c] = some ws →
                      ∃ q e, cur = q ++ [e] ∧ isEndC e = true := by
                    intro ws _
                    obtain ⟨q, hq⟩ := List.getLast?_eq_some_iff.mp hlast
                    exact ⟨q, d, hq, hend⟩
                  obtain ⟨p, ps, hps, hone, hmany⟩ := ih cur (some [c]) hcur
                  refine ⟨p, ps, heq.trans hps, ?_, hmany⟩
                  intro hnil
                  rw [hone hnil]
                  simp
                · have heq : sentAux cur none (c :: rest) =
                      sentAux (cur ++ [c]) none rest := by
                    simp [sentAux, hws, hlast, hend]
                  obtain ⟨p, ps, hps, hone, hmany⟩ :=
                    ih (cur ++ [c]) none (by intro ws h; cases h)
                  refine ⟨p, ps, heq.trans hps, ?_, hmany⟩
                  intro hnil
                  rw [hone hnil]
                  simp
            | none =>
                have heq : sentAux cur none (c :: rest) =
                    sentAux (cur ++ [c]) none rest := by
                  simp [sentAux, hws, hlast]
                obtain ⟨p, ps, hps, hone, hmany⟩ :=
                  ih (cur ++ [c]) none (by intro ws h; cases h)
                refine ⟨p, ps, heq.trans hps, ?_, hmany⟩
                intro hnil
                rw [hone hnil]
                simp
          · have heq : sentAux cur none (c :: rest) =
                sentAux (cur ++ [c]) none rest := by
              simp [sentAux, hws]
            obtain ⟨p, ps, hps, hone, hmany⟩ :=
              ih (cur ++ [c]) none (by intro ws h; cases h)
            refine ⟨p, ps, heq.trans hps, ?_, hmany⟩
            intro hnil
            rw [hone hnil]
            simp
      | some ws =>
          by_cases hws : isWsC c = true
          · have heq : sentAux cur (some ws) (c :: rest) =
                sentAux cur (some (ws ++ [c])) rest := by
              simp [sentAux, hws]
            obtain ⟨p, ps, hps, hone, hmany⟩ :=
              ih cur (some (ws ++ [c])) (fun w hw => hrun ws rfl)
            refine ⟨p, ps, heq.trans hps, ?_, hmany⟩
            intro hnil
            rw [hone hnil]
            simp
          · by_cases hup : isUpperC c = true
            · have heq : sentAux cur (some ws) (c :: rest) =
                  cur :: sentAux [c] none rest := by
                simp [sentAux, hws, hup]
              obtain ⟨p, ps, hps, _, _⟩ :=
                ih [c] none (by intro w h; cases h)
              refine ⟨cur, sentAux [c] none rest, heq, ?_, ?_⟩
              · intro hnil
                rw [hps] at hnil
                cases hnil
              · intro _
                exact hrun ws rfl
            · have heq : sentAux cur (some ws) (c :: rest) =
                  sentAux (cur ++ ws ++ [c]) none rest := by
                simp [sentAux, hws, hup]
              obtain ⟨p, ps, hps, hone, hmany⟩ :=
                ih (cur ++ ws ++ [c]) none (by intro w h; cases h)
              refine ⟨p, ps, heq.trans hps, ?_, hmany⟩
              intro hnil
              rw [hone hnil]
              simp

/-- Shape of the raw regex split: it always returns at least one piece; a
single piece is the whole text, and with several pieces the first one ends
in sentence punctuation. -/
theorem sentSplit_shape (l : List Char) :
    ∃ p ps, sentSplit l = p :: ps ∧ (ps = [] → p = l) ∧
      (ps ≠ [] → ∃ q c, p = q ++ [c] ∧ isEndC c = true) := by
  obtain ⟨p, ps, hps, hone, hmany⟩ :=
    sentAuxShape l [] none (by intro w h; cases h)
  refine ⟨p, ps, hps, ?_, hmany⟩
  intro hnil
  rw [hone hnil]
  simp [sentSplit]


/-- A document with any non-whitespace content splits into at least one
cleaned sentence. -/
theorem splitSentences_ne_nil (text : List Char)
    (h : trimChars text ≠ []) : splitSentences text ≠ [] := by
  obtain ⟨p, ps, hps, hone, hmany⟩ := sentSplit_shape text
  unfold splitSentences
  rw [hps]
  rcases Classical.em (ps = []) with hnil | hne
  · subst hnil
    rw [hone rfl]
    simp only [List.map_cons, List.map_nil, List.filter]
    intro hcon
    rw [show (!(trimChars text).isEmpty) = true by
      cases htc : trimChars text
      · exact absurd htc h
      · rfl] at hcon
    cases hcon
  · obtain ⟨q, c, hpc, hc⟩ := hmany hne
    have htp : trimChars p ≠ [] := by
      rw [hpc]
      exact trimChars_ne_nil_of_last q c (isEndC_not_ws c hc)
    simp only [List.map_cons, List.filter]
    rw [show (!(trimChars p).isEmpty) = true by
      cases htc : trimChars p
      · exact absurd htc htp
      · rfl]
    intro hcon
    cases hcon

/-- The chunking loop never emits while the running buffer plus the next
sentence stays within `chunk_size`. -/
theorem foldl_chunkStep_no_emit (tok : List Char → Nat)
    (cs co : Nat) (sec : Option String) :
    ∀ (sents : List (List Char)) (st : ChunkState),
      st.current_tokens + (sents.map tok).sum ≤ cs →
      sents.foldl (chunkStep tok cs co sec) st =
        { chunks := st.chunks
          current_chunk := st.current_chunk ++ sents
          current_tokens := st.current_tokens + (sents.map tok).sum
          current_start := st.current_start
          chunk_index := st.chunk_index } := by
  intro sents
  induction sents with
  | nil => intro st h; simp
  | cons s rest ih =>
      intro st h
      simp only [List.map_cons, List.sum_cons] at h
      have hno : ¬(cs < st.current_tokens + tok s ∧
          st.current_chunk ≠ []) := by
        rintro ⟨hlt, _⟩
        omega
      show rest.foldl _ (chunkStep tok cs co sec st s) = _
      have hstep : chunkStep tok cs co sec st s =
          { chunks := st.chunks
            current_chunk := st.current_chunk ++ [s]
            current_tokens := st.current_tokens + tok s
            current_start := st.current_start
            chunk_index := st.chunk_index } := by
        simp only [chunkStep, if_neg hno]
      rw [hstep]
      rw [ih _ (by simp; omega)]
      simp [List.append_assoc]
      omega

/-! ## Claim C8: single chunk for small documents, none for empty -/

/-- C8.  `chunk` on a non-empty document (one with any non-whitespace
content) whose total token count — the summed token counts of its split
sentences, which is what the accumulation loop compares against
`chunk_size` — is less than `chunk_size` yields exactly one chunk, and
`chunk` on the empty document yields zero chunks. -/
theorem chunk_small_and_empty_documents (tok : List Char → Nat)
    (cs co : Nat) :
    (∀ text, trimChars text ≠ [] →
      ((splitSentences text).map tok).sum < cs →
      (chunkDocument tok cs co text).length = 1) ∧
    chunkDocument tok cs co [] = [] := by
  constructor
  · intro text htrim hsum
    unfold chunkDocument chunkText
    have hne := splitSentences_ne_nil text htrim
    rw [foldl_chunkStep_no_emit tok cs co none (splitSentences text)
      { chunks := [], current_chunk := [], current_tokens := 0
        current_start := 0, chunk_index := 0 }
      (by simp; omega)]
    unfold chunkFinish
    simp only [List.nil_append]
    rw [if_pos hne]
    simp
  · rfl

/-- Witness for C8: a two-sentence document of 16 total tokens with
`chunk_size` 100 yields one chunk, and the empty document yields none. -/
theorem chunk_small_and_empty_documents_witness :
    trimChars "Short text. Fine.".toList ≠ [] ∧
    ((splitSentences "Short text. Fine.".toList).map
      (fun s => s.length)).sum < 100 ∧
    (chunkDocument (fun s => s.length) 100 10
      "Short text. Fine.".toList).length = 1 ∧
    chunkDocument (fun s => s.length) 100 10 [] = [] := by
  refine ⟨by decide, by decide, ?_, ?_⟩
  · exact (chunk_small_and_empty_documents (fun s => s.length) 100 10).1
      "Short text. Fine.".toList (by decide) (by decide)
  · exact (chunk_small_and_empty_documents (fun s => s.length) 100 10).2

/-! ## Helper lemmas: deduplication -/

theorem goodGroups_alAppendGroup (d : List (List Char × List LiteratureResult))
    (r : LiteratureResult) (hr : hasDoi r = true) (hd : GoodGroups d) :
    GoodGroups (alAppendGroup (doiKey r) r d) := by
  obtain ⟨hkeys, hmem⟩ := hd
  unfold alAppendGroup
  by_cases hany : d.any (fun p => p.1 = doiKey r)
  · rw [if_pos hany]
    constructor
    · have hmapkeys :
          (d.map (fun p => if p.1 = doiKey r then (p.1, p.2 ++ [r]) else p)).map
            (fun p => p.1) = d.map (fun p => p.1) := by
        rw [List.map_map]
        apply List.map_congr_left
        intro p _
        show (if p.1 = doiKey r then (p.1, p.2 ++ [r]) else p).1 = p.1
        split <;> rfl
      rw [hmapkeys]
      exact hkeys
    · intro p hp
      rcases List.mem_map.mp hp with ⟨q, hq, hpq⟩
      by_cases hqk : q.1 = doiKey r
      · rw [← hpq, if_pos hqk]
        refine ⟨by simp, ?_⟩
        intro x hx
        rcases List.mem_append.mp hx with hx | hx
        · exact (hmem q hq).2 x hx
        · rcases List.mem_singleton.mp hx with hxr
          subst hxr
          exact ⟨hr, hqk.symm⟩
      · rw [← hpq, if_neg hqk]
        exact hmem q hq
  · rw [if_neg hany]
    constructor
    · have hfresh : doiKey r ∉ d.map (fun p => p.1) := by
        intro hcon
        rcases List.mem_map.mp hcon with ⟨q, hq, hqk⟩
        have : d.any (fun p => p.1 = doiKey r) = true :=
          List.any_eq_true.mpr ⟨q, hq, by simp [hqk]⟩
        exact hany this
      rw [List.map_append]
      simp only [List.map_cons, List.map_nil]
      rw [List.nodup_append]
      exact ⟨hkeys, List.nodup_singleton _,
        by simpa [List.disjoint_singleton] using hfresh⟩
    · intro p hp
      rcases List.mem_append.mp hp with hp | hp
      · exact hmem p hp
      · rcases List.mem_singleton.mp hp with hpr
        subst hpr
        refine ⟨by simp, ?_⟩
        intro x hx
        rcases List.mem_singleton.mp hx with hxr
        subst hxr
        exact ⟨hr, rfl⟩

theorem goodGroups_fold :
    ∀ (rs : List LiteratureResult)
      (acc : List (List Char × List LiteratureResult) ×
        List LiteratureResult),
      GoodGroups acc.1 → GoodGroups ((rs.foldl groupStep acc).1) := by
  intro rs
  induction rs with
  | nil => intro acc h; exact h
  | cons r rest ih =>
      intro acc h
      show GoodGroups ((rest.foldl groupStep (groupStep acc r)).1)
      apply ih
      unfold groupStep
      by_cases hr : hasDoi r = true
      · rw [if_pos hr]
        exact goodGroups_alAppendGroup acc.1 r hr h
      · rw [if_neg hr]
        exact h

theorem groupByDoi_snd :
    ∀ (rs : List LiteratureResult)
      (acc : List (List Char × List LiteratureResult) ×
        List LiteratureResult),
      (rs.foldl groupStep acc).2 =
        acc.2 ++ rs.filter (fun r => !hasDoi r) := by
  intro rs
  induction rs with
  | nil => intro acc; simp
  | cons r rest ih =>
      intro acc
      show (rest.foldl groupStep (groupStep acc r)).2 = _
      rw [ih (groupStep acc r)]
      unfold groupStep
      by_cases hr : hasDoi r = true
      · rw [if_pos hr]
        simp [List.filter_cons, hr]
      · rw [if_neg hr]
        have hrb : hasDoi r = false := by
          cases hc : hasDoi r
          · rfl
          · exact absurd hc hr
        simp [List.filter_cons, hrb]

/-- Merging never changes the DOI of the group head. -/
theorem mergeResults_doi (g0 : LiteratureResult)
    (rest : List LiteratureResult) :
    (mergeResults g0 rest).doi = g0.doi := by
  unfold mergeResults
  split
  · rfl
  · exact (foldl_mergeStep_frame rest g0).2.2.2.2.1

theorem hasDoi_of_doi_eq (a b : LiteratureResult) (h : a.doi = b.doi) :
    hasDoi a = hasDoi b := by
  unfold hasDoi
  rw [h]

theorem doiKey_of_doi_eq (a b : LiteratureResult) (h : a.doi = b.doi) :
    doiKey a = doiKey b := by
  unfold doiKey
  rw [h]

theorem merged_records_keyed (d : List (List Char × List LiteratureResult))
    (hd : GoodGroups d) :
    (∀ m ∈ d.filterMap mergeGroup, hasDoi m = true) ∧
    (∀ p ∈ d, ∀ m, mergeGroup p = some m → doiKey m = p.1) ∧
    (d.filterMap mergeGroup).Pairwise
      (fun a b => doiKey a ≠ doiKey b) := by
  obtain ⟨hkeys, hmem⟩ := hd
  have hkeyof : ∀ p ∈ d, ∀ m, mergeGroup p = some m →
      doiKey m = p.1 ∧ hasDoi m = true := by
    intro p hp m hmg
    unfold mergeGroup at hmg
    rcases hg : p.2 with _ | ⟨g0, rest⟩
    · rw [hg] at hmg
      cases hmg
    · rw [hg] at hmg
      have hm : m = mergeResults g0 rest := by
        injection hmg with h
        exact h.symm
      have hg0 : g0 ∈ p.2 := by rw [hg]; exact List.mem_cons_self _ _
      obtain ⟨hdoi0, hkey0⟩ := (hmem p hp).2 g0 hg0
      have hdeq : m.doi = g0.doi := by rw [hm]; exact mergeResults_doi g0 rest
      constructor
      · rw [doiKey_of_doi_eq m g0 hdeq]
        exact hkey0
      · rw [hasDoi_of_doi_eq m g0 hdeq]
        exact hdoi0
  refine ⟨?_, fun p hp m hm => (hkeyof p hp m hm).1, ?_⟩
  · intro m hm
    rcases List.mem_filterMap.mp hm with ⟨p, hp, hmg⟩
    exact (hkeyof p hp m hmg).2
  · rw [List.pairwise_filterMap]
    have hpw : d.Pairwise (fun p q => p.1 ≠ q.1) := by
      have := List.pairwise_map.mp hkeys
      exact this
    refine hpw.imp_of_mem ?_
    intro p q hp hq hne
    intro a ha b hb
    have hka := (hkeyof p hp a (by simpa using ha)).1
    have hkb := (hkeyof q hq b (by simpa using hb)).1
    rw [hka, hkb]
    exact hne

theorem dedupByTitle_subset :
    ∀ (l : List LiteratureResult) (seen : List (List Char))
      (r : LiteratureResult), r ∈ dedupByTitle seen l → r ∈ l := by
  intro l
  induction l with
  | nil => intro seen r h; cases h
  | cons x rest ih =>
      intro seen r h
      unfold dedupByTitle at h
      split at h
      · exact List.mem_cons_of_mem _ (ih _ r h)
      · rcases List.mem_cons.mp h with hr | hr
        · subst hr
          exact List.mem_cons_self _ _
        · exact List.mem_cons_of_mem _ (ih _ r hr)

theorem dedupByTitle_not_seen :
    ∀ (l : List LiteratureResult) (seen : List (List Char))
      (r : LiteratureResult), r ∈ dedupByTitle seen l →
      seen.contains (titleKey r) = false := by
  intro l
  induction l with
  | nil => intro seen r h; cases h
  | cons x rest ih =>
      intro seen r h
      unfold dedupByTitle at h
      split at h
      · exact ih _ r h
      · rename_i hx
        rcases List.mem_cons.mp h with hr | hr
        · subst hr
          cases hc : seen.contains (titleKey r)
          · rfl
          · exact absurd hc hx
        · have := ih _ r hr
          cases hc : seen.contains (titleKey r)
          · rfl
          · exfalso
            have hcons : (titleKey x :: seen).contains (titleKey r) = true := by
              simp only [List.contains_cons]
              rw [hc]
              simp
            rw [this] at hcons
            cases hcons

theorem dedupByTitle_first :
    ∀ (l : List LiteratureResult) (seen : List (List Char))
      (r : LiteratureResult), r ∈ dedupByTitle seen l →
      (l.filter (fun x => decide (titleKey x = titleKey r))).head? =
        some r := by
  intro l
  induction l with
  | nil => intro seen r h; cases h
  | cons x rest ih =>
      intro seen r h
      unfold dedupByTitle at h
      split at h
      · rename_i hx
        have hne : ¬ titleKey x = titleKey r := by
          intro hcon
          have := dedupByTitle_not_seen rest seen r h
          rw [← hcon] at this
          rw [hx] at this
          cases this
        rw [List.filter_cons]
        simp only [hne, decide_eq_false_iff_not, if_false]
        exact ih _ r h
      · rename_i hx
        rcases List.mem_cons.mp h with hr | hr
        · subst hr
          rw [List.filter_cons]
          simp
        · have hns := dedupByTitle_not_seen rest (titleKey x :: seen) r hr
          have hne : ¬ titleKey x = titleKey r := by
            intro hcon
            simp only [List.contains_cons] at hns
            rw [hcon] at hns
            simp at hns
          rw [List.filter_cons]
          simp only [hne, decide_eq_false_iff_not, if_false]
          exact ih _ r hr

theorem dedupByTitle_pairwise :
    ∀ (l : List LiteratureResult) (seen : List (List Char)),
      (dedupByTitle seen l).Pairwise
        (fun a b => titleKey a ≠ titleKey b) := by
  intro l
  induction l with
  | nil => intro seen; exact List.Pairwise.nil
  | cons x rest ih =>
      intro seen
      unfold dedupByTitle
      split
      · exact ih seen
      · refine List.Pairwise.cons ?_ (ih _)
        intro b hb hcon
        have := dedupByTitle_not_seen rest (titleKey x :: seen) b hb
        simp only [List.contains_cons] at this
        rw [← hcon] at this
        simp at this

/-! ## Helper lemmas: BM25 retrieval -/

theorem length_insertDesc {α : Type} (key : α → ℚ) (x : α) (l : List α) :
    (insertDesc key x l).length = l.length + 1 := by
  induction l with
  | nil => rfl
  | cons y ys ih =>
      simp only [insertDesc]
      split
      · rfl
      · simp [ih]

theorem length_sortDesc {α : Type} (key : α → ℚ) (l : List α) :
    (sortDesc key l).length = l.length := by
  induction l with
  | nil => rfl
  | cons x xs ih =>
      show (insertDesc key x (sortDesc key xs)).length = xs.length + 1
      rw [length_insertDesc, ih]

theorem length_filterMap_eq_countP {α β : Type} (f : α → Option β) :
    ∀ (l : List α),
      (l.filterMap f).length = l.countP (fun a => (f a).isSome) := by
  intro l
  induction l with
  | nil => rfl
  | cons x xs ih =>
      rw [List.filterMap_cons, List.countP_cons]
      cases hf : f x with
      | none => simp [hf, ih]
      | some b => simp [hf, ih]

/-- `maxQ` computes the maximum: a common upper bound that is attained is
the value of `maxQ`. -/
theorem maxQ_eq_of_max (l : List ℚ) (a : ℚ) (hub : ∀ y ∈ l, y ≤ a)
    (hmem : a ∈ l) : maxQ l = a := by
  cases l with
  | nil => cases hmem
  | cons x xs =>
      show xs.foldl max x = a
      apply le_antisymm
      · rcases foldl_max_choice xs x with h | ⟨y, hy, hf⟩
        · rw [h]
          exact hub x (List.mem_cons_self _ _)
        · rw [hf]
          exact hub y (List.mem_cons_of_mem _ hy)
      · rcases List.mem_cons.mp hmem with h | h
        · rw [h]
          exact le_foldl_max xs x
        · exact mem_le_foldl_max xs x a h

/-- Distinct row ids order the rows by their id position. -/
theorem pairwise_idIndex (rows : List KwRow)
    (h : (rows.map (fun r => r.id)).Nodup) :
    rows.Pairwise (fun r1 r2 => idIndex rows r1.id < idIndex rows r2.id) := by
  rw [List.pairwise_iff_getElem]
  intro i j hi hj hij
  have hmi : i < (rows.map (fun r => r.id)).length := by
    rw [List.length_map]; exact hi
  have hmj : j < (rows.map (fun r => r.id)).length := by
    rw [List.length_map]; exact hj
  have hgi : (rows.map (fun r => r.id))[i] = rows[i].id := by
    simp
  have hgj : (rows.map (fun r => r.id))[j] = rows[j].id := by
    simp
  unfold idIndex
  rw [← hgi, ← hgj, List.indexOf_getElem h i hmi, List.indexOf_getElem h j hmj]
  exact hij

/-- Any member of a rational list is bounded by its `maxQ`. -/
theorem maxQ_le_mem (l : List ℚ) (y : ℚ) (hy : y ∈ l) : y ≤ maxQ l := by
  cases l with
  | nil => cases hy
  | cons x xs =>
      show y ≤ xs.foldl max x
      rcases List.mem_cons.mp hy with h | h
      · rw [h]
        exact le_foldl_max xs x
      · exact mem_le_foldl_max xs x y h

/-- Characterization of the scored list entries. -/
theorem kwScored_mem (lg : ℚ → ℚ) (qterms : List (List Char))
    (rows : List KwRow) (p : ℚ × RetrievalResult)
    (hp : p ∈ kwScored lg qterms rows) :
    ∃ row ∈ rows, 0 < kwScore lg qterms rows row ∧
      p = (kwScore lg qterms rows row,
        kwResult row (kwScore lg qterms rows row)) := by
  rcases List.mem_filterMap.mp hp with ⟨row, hrow, hf⟩
  by_cases hpos : 0 < kwScore lg qterms rows row
  · rw [if_pos hpos] at hf
    exact ⟨row, hrow, hpos, (Option.some_injective _ hf).symm⟩
  · rw [if_neg hpos] at hf
    cases hf

/-! ## Claim C5: BM25 retrieval ranking and normalization -/

/-- C5.  For every logarithm function, query, candidate row set with
distinct chunk ids, and `top_k`: a query with no tokens yields no results;
the output has one entry per surviving candidate (positive BM25 score) up
to `top_k`; every returned entry corresponds to a candidate row with
strictly positive raw BM25 score (zero scores excluded) and carries that
raw score divided by the maximum raw score among the returned entries, so
the first returned entry scores exactly 1; the output is sorted descending
by score; and equal-scored entries keep the input row order (stability). -/
theorem kw_retrieve_ranked (lg : ℚ → ℚ) (query : List Char)
    (rows : List KwRow) (top_k : Nat)
    (hids : (rows.map (fun r => r.id)).Nodup) :
    (kwTokenize query = [] → kwRetrieve lg query rows top_k = []) ∧
    (kwRetrieve lg query rows top_k).length =
      min top_k (rows.countP (fun row =>
        decide (0 < kwScore lg (kwTokenize query) rows row))) ∧
    (∃ M : ℚ,
      (∀ r ∈ kwRetrieve lg query rows top_k, ∃ row ∈ rows,
        r.chunk_id = row.id ∧
        0 < kwScore lg (kwTokenize query) rows row ∧
        kwScore lg (kwTokenize query) rows row ≤ M ∧
        r.score = kwScore lg (kwTokenize query) rows row / M) ∧
      (kwRetrieve lg query rows top_k ≠ [] → 0 < M ∧
        ∃ h t, kwRetrieve lg query rows top_k = h :: t ∧ h.score = 1)) ∧
    (kwRetrieve lg query rows top_k).Pairwise
      (fun a b => b.score ≤ a.score) ∧
    (kwRetrieve lg query rows top_k).Pairwise
      (fun a b => a.score = b.score →
        idIndex rows a.chunk_id < idIndex rows b.chunk_id) := by
  by_cases hq : kwTokenize query = []
  · have hout : kwRetrieve lg query rows top_k = [] := by
      unfold kwRetrieve
      rw [if_pos hq]
    have hcount : rows.countP (fun row =>
        decide (0 < kwScore lg (kwTokenize query) rows row)) = 0 := by
      apply List.countP_eq_zero.mpr
      intro row _
      have : kwScore lg (kwTokenize query) rows row = 0 := by
        rw [hq]
        rfl
      simp [this]
    refine ⟨fun _ => hout, ?_, ⟨1, ?_, ?_⟩, ?_, ?_⟩
    · rw [hout, hcount]
      simp
    · intro r hr
      rw [hout] at hr
      cases hr
    · intro hne
      exact absurd hout hne
    · rw [hout]
      exact List.Pairwise.nil
    · rw [hout]
      exact List.Pairwise.nil
  · by_cases hrows : rows = []
    · have hout : kwRetrieve lg query rows top_k = [] := by
        unfold kwRetrieve
        rw [if_neg hq, if_pos hrows]
      subst hrows
      refine ⟨fun h => absurd h hq, ?_, ⟨1, ?_, ?_⟩, ?_, ?_⟩
      · rw [hout]
        simp
      · intro r hr
        rw [hout] at hr
        cases hr
      · intro hne
        exact absurd hout hne
      · rw [hout]
        exact List.Pairwise.nil
      · rw [hout]
        exact List.Pairwise.nil
    · have hout : kwRetrieve lg query rows top_k =
          kwNormalize (((sortDesc (fun p => p.1)
            (kwScored lg (kwTokenize query) rows)).take top_k).map
              (fun p => p.2)) := by
        unfold kwRetrieve
        rw [if_neg hq, if_neg hrows]
      have hsc := kwScored_mem lg (kwTokenize query) rows
      have hcountl : (kwScored lg (kwTokenize query) rows).length =
          rows.countP (fun row =>
            decide (0 < kwScore lg (kwTokenize query) rows row)) := by
        unfold kwScored
        rw [length_filterMap_eq_countP]
        apply List.countP_congr
        intro row _
        by_cases hpos : 0 < kwScore lg (kwTokenize query) rows row
        · simp [hpos]
        · simp [hpos]
      have hlen : (((sortDesc (fun p => p.1)
          (kwScored lg (kwTokenize query) rows)).take top_k).map
            (fun p => p.2)).length =
          min top_k (rows.countP (fun row =>
            decide (0 < kwScore lg (kwTokenize query) rows row))) := by
        rw [List.length_map, List.length_take, length_sortDesc, hcountl]
      have hrow_pw : rows.Pairwise
          (fun r1 r2 => idIndex rows r1.id < idIndex rows r2.id) :=
        pairwise_idIndex rows hids
      have hscored_pw : (kwScored lg (kwTokenize query) rows).Pairwise
          (fun p q => idIndex rows p.2.chunk_id <
            idIndex rows q.2.chunk_id) := by
        unfold kwScored
        rw [List.pairwise_filterMap]
        refine hrow_pw.imp_of_mem ?_
        intro r1 r2 _ _ hlt
        intro b hb b' hb'
        simp only [Option.mem_def] at hb hb'
        have hcb : b.2.chunk_id = r1.id := by
          by_cases hpos : 0 < kwScore lg (kwTokenize query) rows r1
          · rw [if_pos hpos] at hb
            rw [← Option.some_injective _ hb]
            try rfl
          · rw [if_neg hpos] at hb
            cases hb
        have hcb' : b'.2.chunk_id = r2.id := by
          by_cases hpos : 0 < kwScore lg (kwTokenize query) rows r2
          · rw [if_pos hpos] at hb'
            rw [← Option.some_injective _ hb']
            try rfl
          · rw [if_neg hpos] at hb'
            cases hb'
        rw [hcb, hcb']
        exact hlt
      have hsorted_pw := pairwise_sortDesc (fun p => p.1) _ _ hscored_pw
      have htaken_pw := hsorted_pw.sublist
        (List.take_sublist top_k
          (sortDesc (fun p => p.1) (kwScored lg (kwTokenize query) rows)))
      have htaken_scored : ∀ p ∈ (sortDesc (fun p => p.1)
          (kwScored lg (kwTokenize query) rows)).take top_k,
          p ∈ kwScored lg (kwTokenize query) rows := by
        intro p hp
        exact (mem_sortDesc (fun p => p.1) _ p).mp (List.mem_of_mem_take hp)
      have htaken_score_eq : ∀ p ∈ (sortDesc (fun p => p.1)
          (kwScored lg (kwTokenize query) rows)).take top_k,
          p.2.score = p.1 := by
        intro p hp
        rcases hsc p (htaken_scored p hp) with ⟨row, _, _, hpe⟩
        rw [hpe]
        rfl
      by_cases hresnil : (((sortDesc (fun p => p.1)
          (kwScored lg (kwTokenize query) rows)).take top_k).map
            (fun p => p.2)) = []
      · have houtnil : kwRetrieve lg query rows top_k = [] := by
          rw [hout, hresnil]
          rfl
        refine ⟨fun h => absurd h hq, ?_, ⟨1, ?_, ?_⟩, ?_, ?_⟩
        · rw [houtnil, ← hlen, hresnil]
        · intro r hr
          rw [houtnil] at hr
          cases hr
        · intro hne
          exact absurd houtnil hne
        · rw [houtnil]
          exact List.Pairwise.nil
        · rw [houtnil]
          exact List.Pairwise.nil
      · -- nonempty main branch
        obtain ⟨r0, rtail, hres⟩ := List.exists_cons_of_ne_nil hresnil
        have hres_mem : ∀ r ∈ (((sortDesc (fun p => p.1)
            (kwScored lg (kwTokenize query) rows)).take top_k).map
              (fun p => p.2)), ∃ row ∈ rows,
            r.chunk_id = row.id ∧
            0 < kwScore lg (kwTokenize query) rows row ∧
            r.score = kwScore lg (kwTokenize query) rows row := by
          intro r hr
          rcases List.mem_map.mp hr with ⟨p, hp, hpr⟩
          rcases hsc p (htaken_scored p hp) with ⟨row, hrow, hpos, hpe⟩
          refine ⟨row, hrow, ?_, hpos, ?_⟩
          · rw [← hpr, hpe]
            rfl
          · rw [← hpr, hpe]
            rfl
        -- the head of the sorted list bounds all scores
        have hsorted_ne : sortDesc (fun p => p.1)
            (kwScored lg (kwTokenize query) rows) ≠ [] := by
          intro hcon
          rw [hcon] at hresnil
          simp at hresnil
        obtain ⟨s0, stail, hs0⟩ := List.exists_cons_of_ne_nil hsorted_ne
        have hhead := sortDesc_head_max (fun p => p.1) _ s0 stail hs0
        have hbound : ∀ r ∈ (((sortDesc (fun p => p.1)
            (kwScored lg (kwTokenize query) rows)).take top_k).map
              (fun p => p.2)), r.score ≤ s0.1 := by
          intro r hr
          rcases List.mem_map.mp hr with ⟨p, hp, hpr⟩
          rw [← hpr, htaken_score_eq p hp]
          exact hhead.2 p (htaken_scored p hp)
        have htk : ∃ k, top_k = k + 1 := by
          cases top_k with
          | zero =>
              exfalso
              apply hresnil
              simp
          | succ k => exact ⟨k, rfl⟩
        obtain ⟨k, hk⟩ := htk
        have htake_eq : (sortDesc (fun p => p.1)
            (kwScored lg (kwTokenize query) rows)).take top_k =
            s0 :: stail.take k := by
          rw [hs0, hk]
          rfl
        have hr0 : r0 = s0.2 := by
          have : (((sortDesc (fun p => p.1)
              (kwScored lg (kwTokenize query) rows)).take top_k).map
                (fun p => p.2)) = s0.2 :: (stail.take k).map (fun p => p.2) := by
            rw [htake_eq]
            rfl
          rw [hres] at this
          injection this with h1 _
        have hs0score : s0.2.score = s0.1 :=
          htaken_score_eq s0 (by rw [htake_eq]; exact List.mem_cons_self _ _)
        have hr0mem : r0 ∈ (((sortDesc (fun p => p.1)
            (kwScored lg (kwTokenize query) rows)).take top_k).map
              (fun p => p.2)) := by
          rw [hres]
          exact List.mem_cons_self _ _
        have hr0pos : 0 < r0.score := by
          rcases hres_mem r0 hr0mem with ⟨row, _, _, hpos, hsceq⟩
          rw [hsceq]
          exact hpos
        have hM : maxQ ((((sortDesc (fun p => p.1)
            (kwScored lg (kwTokenize query) rows)).take top_k).map
              (fun p => p.2)).map (fun r => r.score)) = s0.1 := by
          apply maxQ_eq_of_max
          · intro y hy
            rcases List.mem_map.mp hy with ⟨r, hr, hry⟩
            rw [← hry]
            exact hbound r hr
          · apply List.mem_map.mpr
            refine ⟨r0, hr0mem, ?_⟩
            rw [hr0, hs0score]
        have hMpos : 0 < s0.1 := by
          rw [← hs0score, ← hr0]
          exact hr0pos
        have hnorm : kwRetrieve lg query rows top_k =
            (((sortDesc (fun p => p.1)
              (kwScored lg (kwTokenize query) rows)).take top_k).map
                (fun p => p.2)).map
              (fun r => { r with score := r.score / s0.1 }) := by
          rw [hout]
          unfold kwNormalize
          rw [if_neg hresnil, hM, if_pos hMpos]
        refine ⟨fun h => absurd h hq, ?_, ⟨s0.1, ?_, ?_⟩, ?_, ?_⟩
        · rw [hnorm, List.length_map, hlen]
        · intro r hr
          rw [hnorm] at hr
          rcases List.mem_map.mp hr with ⟨r', hr', hrr⟩
          rcases hres_mem r' hr' with ⟨row, hrow, hcid, hpos, hsceq⟩
          refine ⟨row, hrow, ?_, hpos, ?_, ?_⟩
          · rw [← hrr]
            exact hcid
          · rw [← hsceq]
            have : r' ∈ (((sortDesc (fun p => p.1)
                (kwScored lg (kwTokenize query) rows)).take top_k).map
                  (fun p => p.2)) := hr'
            have hy : r'.score ∈ ((((sortDesc (fun p => p.1)
                (kwScored lg (kwTokenize query) rows)).take top_k).map
                  (fun p => p.2)).map (fun r => r.score)) :=
              List.mem_map.mpr ⟨r', hr', rfl⟩
            have := maxQ_le_mem _ _ hy
            rw [hM] at this
            exact this
          · rw [← hrr, ← hsceq]
        · intro _
          refine ⟨hMpos, ?_⟩
          refine ⟨{ r0 with score := r0.score / s0.1 },
            rtail.map (fun r => { r with score := r.score / s0.1 }), ?_, ?_⟩
          · rw [hnorm, hres]
            rfl
          · show r0.score / s0.1 = 1
            rw [hr0, hs0score]
            exact div_self (ne_of_gt hMpos)
        · rw [hnorm]
          rw [List.map_map]
          rw [List.pairwise_map]
          refine List.Pairwise.imp_of_mem ?_ htaken_pw
          intro p q hp hq2 hrel
          show (q.2.score / s0.1) ≤ (p.2.score / s0.1)
          rw [htaken_score_eq p hp, htaken_score_eq q hq2]
          exact (div_le_div_iff_of_pos_right hMpos).mpr hrel.1
        · rw [hnorm]
          rw [List.map_map]
          rw [List.pairwise_map]
          refine List.Pairwise.imp_of_mem ?_ htaken_pw
          intro p q hp hq2 hrel heq
          show idIndex rows p.2.chunk_id < idIndex rows q.2.chunk_id
          have heq' : p.2.score / s0.1 = q.2.score / s0.1 := heq
          rw [htaken_score_eq p hp, htaken_score_eq q hq2] at heq'
          have hpq : p.1 = q.1 := by
            field_simp at heq'
            exact heq'
          rcases hrel.2 with hlt | hidx
          · exfalso
            have hlt2 : q.1 < p.1 := hlt
            rw [hpq] at hlt2
            exact lt_irrefl _ hlt2
          · exact hidx

/-- Witness for C5 at the spec's BM25 example rows (glass-fiber vs biology)
with the placeholder logarithm: the distinct-id hypothesis holds and the
theorem applies, giving the sortedness and survivor-count facts there. -/
theorem kw_retrieve_ranked_witness :
    ([rowGlass, rowBio].map (fun r => r.id)).Nodup ∧
    (kwRetrieve lgW "glass fiber".toList [rowGlass, rowBio] 10).Pairwise
      (fun a b => b.score ≤ a.score) ∧
    (kwRetrieve lgW "glass fiber".toList [rowGlass, rowBio] 10).length =
      min 10 ([rowGlass, rowBio].countP (fun row =>
        decide (0 < kwScore lgW (kwTokenize "glass fiber".toList)
          [rowGlass, rowBio] row))) := by
  refine ⟨by decide, ?_, ?_⟩
  · exact (kw_retrieve_ranked lgW "glass fiber".toList [rowGlass, rowBio] 10
      (by decide)).2.2.2.1
  · exact (kw_retrieve_ranked lgW "glass fiber".toList [rowGlass, rowBio] 10
      (by decide)).2.1

/-! ## Helper lemmas: RRF fusion -/

theorem alGet_nil_getD {κ : Type} [DecidableEq κ] (k : κ) :
    ((alGet k ([] : List (κ × ℚ))).getD 0) = 0 := rfl

theorem rrf_valOf_absent (w : ℚ) :
    ∀ (l : List RetrievalResult) (rank : ℚ) (s : List (String × ℚ))
      (c : String), c ∉ l.map (fun r => r.chunk_id) →
      (alGet c (rrfAddScores w rank l s)).getD 0 = (alGet c s).getD 0 := by
  intro l
  induction l with
  | nil => intro rank s c _; rfl
  | cons r rest ih =>
      intro rank s c hc
      simp only [List.map_cons, List.mem_cons, not_or] at hc
      show (alGet c (rrfAddScores w (rank + 1) rest
        (alAddQ r.chunk_id (w / (RRF_K + rank)) s))).getD 0 = _
      rw [ih (rank + 1) _ c (by simpa using hc.2)]
      rw [valOf_alAddQ]
      rw [if_neg (fun h => hc.1 h.symm)]
      ring

theorem rrf_valOf_head (w : ℚ) (r0 : RetrievalResult)
    (rest : List RetrievalResult) (rank : ℚ) (s : List (String × ℚ))
    (hnd : r0.chunk_id ∉ rest.map (fun r => r.chunk_id)) :
    (alGet r0.chunk_id (rrfAddScores w rank (r0 :: rest) s)).getD 0 =
      (alGet r0.chunk_id s).getD 0 + w / (RRF_K + rank) := by
  show (alGet r0.chunk_id (rrfAddScores w (rank + 1) rest
    (alAddQ r0.chunk_id (w / (RRF_K + rank)) s))).getD 0 = _
  rw [rrf_valOf_absent w rest (rank + 1) _ _ hnd]
  rw [valOf_alAddQ]
  rw [if_pos rfl]

theorem rrf_valOf_bound (w : ℚ) (hw : 0 < w) :
    ∀ (l : List RetrievalResult) (rank : ℚ), 1 ≤ rank →
      ∀ (s : List (String × ℚ)) (c : String),
      (l.map (fun r => r.chunk_id)).Nodup →
      (alGet c (rrfAddScores w rank l s)).getD 0 ≤
        (alGet c s).getD 0 + w / (RRF_K + rank) := by
  intro l
  induction l with
  | nil =>
      intro rank hrank s c _
      show (alGet c s).getD 0 ≤ _
      have : 0 < w / (RRF_K + rank) := by
        apply div_pos hw
        unfold RRF_K
        linarith
      linarith
  | cons r rest ih =>
      intro rank hrank s c hnd
      simp only [List.map_cons, List.nodup_cons] at hnd
      show (alGet c (rrfAddScores w (rank + 1) rest
        (alAddQ r.chunk_id (w / (RRF_K + rank)) s))).getD 0 ≤ _
      by_cases hc : c = r.chunk_id
      · subst hc
        rw [rrf_valOf_absent w rest (rank + 1) _ _ hnd.1]
        rw [valOf_alAddQ, if_pos rfl]
      · have hb := ih (rank + 1) (by linarith) (alAddQ r.chunk_id
          (w / (RRF_K + rank)) s) c hnd.2
        rw [valOf_alAddQ, if_neg (fun h => hc h.symm)] at hb
        have hmono : w / (RRF_K + (rank + 1)) ≤ w / (RRF_K + rank) := by
          apply div_le_div_of_nonneg_left (le_of_lt hw)
          · unfold RRF_K
            linarith
          · linarith
        linarith

theorem keys_alAddQ_nodup {κ : Type} [DecidableEq κ] (k : κ) (v : ℚ)
    (d : List (κ × ℚ)) (h : (d.map Prod.fst).Nodup) :
    ((alAddQ k v d).map Prod.fst).Nodup := by
  unfold alAddQ
  by_cases hany : d.any (fun p => p.1 = k)
  · rw [if_pos hany]
    have hmk : (d.map (fun p =>
        if p.1 = k then (p.1, p.2 + v) else p)).map Prod.fst =
        d.map Prod.fst := by
      rw [List.map_map]
      apply List.map_congr_left
      intro p _
      show (if p.1 = k then (p.1, p.2 + v) else p).1 = p.1
      split <;> rfl
    rw [hmk]
    exact h
  · rw [if_neg hany]
    have hfresh : k ∉ d.map Prod.fst := by
      intro hcon
      rcases List.mem_map.mp hcon with ⟨q, hq, hqk⟩
      exact absurd (List.any_eq_true.mpr ⟨q, hq, by simp [hqk]⟩) hany
    rw [List.map_append]
    simp only [List.map_cons, List.map_nil]
    rw [List.nodup_append]
    exact ⟨h, List.nodup_singleton _,
      by simpa [List.disjoint_singleton] using hfresh⟩

theorem rrf_keys_nodup (w : ℚ) :
    ∀ (l : List RetrievalResult) (rank : ℚ) (s : List (String × ℚ)),
      (s.map Prod.fst).Nodup →
      ((rrfAddScores w rank l s).map Prod.fst).Nodup := by
  intro l
  induction l with
  | nil => intro rank s h; exact h
  | cons r rest ih =>
      intro rank s h
      exact ih (rank + 1) _ (keys_alAddQ_nodup r.chunk_id _ s h)

theorem alGet_mem_of_nodup {κ : Type} [DecidableEq κ] {β : Type} :
    ∀ (d : List (κ × β)) (k : κ) (v : β), (d.map Prod.fst).Nodup →
      (k, v) ∈ d → alGet k d = some v := by
  intro d
  induction d with
  | nil => intro k v _ h; cases h
  | cons p rest ih =>
      intro k v hnd hm
      simp only [List.map_cons, List.nodup_cons] at hnd
      rcases List.mem_cons.mp hm with hp | hp
      · rw [← hp]
        simp [alGet]
      · have hkne : ¬ p.1 = k := by
          intro hcon
          apply hnd.1
          apply List.mem_map.mpr
          exact ⟨(k, v), hp, by rw [hcon]⟩
        simp only [alGet, if_neg hkne]
        exact ih k v hnd.2 hp

theorem alGet_some_mem {κ : Type} [DecidableEq κ] {β : Type} :
    ∀ (d : List (κ × β)) (k : κ) (v : β), alGet k d = some v →
      (k, v) ∈ d := by
  intro d
  induction d with
  | nil => intro k v h; cases h
  | cons p rest ih =>
      intro k v h
      by_cases hp : p.1 = k
      · rw [alGet, if_pos hp] at h
        have : p = (k, v) := by
          rcases p with ⟨pk, pv⟩
          simp at hp h
          rw [hp, h]
        rw [← this]
        exact List.mem_cons_self _ _
      · rw [alGet, if_neg hp] at h
        exact List.mem_cons_of_mem _ (ih k v h)

theorem rrfMapSem_absent :
    ∀ (l : List RetrievalResult) (m : List (String × RetrievalResult))
      (c : String), c ∉ l.map (fun r => r.chunk_id) →
      alGet c (rrfMapSem l m) = alGet c m := by
  intro l
  induction l with
  | nil => intro m c _; rfl
  | cons r rest ih =>
      intro m c hc
      simp only [List.map_cons, List.mem_cons, not_or] at hc
      show alGet c (rrfMapSem rest (alSet r.chunk_id r m)) = _
      rw [ih _ c (by simpa using hc.2)]
      rw [alGet_alSet, if_neg (fun h => hc.1 h.symm)]

theorem rrfMapSem_head (s0 : RetrievalResult)
    (stail : List RetrievalResult) (m : List (String × RetrievalResult))
    (hnd : s0.chunk_id ∉ stail.map (fun r => r.chunk_id)) :
    alGet s0.chunk_id (rrfMapSem (s0 :: stail) m) = some s0 := by
  show alGet s0.chunk_id (rrfMapSem stail (alSet s0.chunk_id s0 m)) = _
  rw [rrfMapSem_absent stail _ _ hnd]
  rw [alGet_alSet, if_pos rfl]

theorem rrfMapKw_preserves :
    ∀ (l : List RetrievalResult) (m : List (String × RetrievalResult))
      (c : String) (r : RetrievalResult), alGet c m = some r →
      alGet c (rrfMapKw l m) = some r := by
  intro l
  induction l with
  | nil => intro m c r h; exact h
  | cons x rest ih =>
      intro m c r h
      show alGet c (rrfMapKw rest (alSetIfAbsent x.chunk_id x m)) = _
      apply ih
      rw [alGet_alSetIfAbsent, h]

/-! ## Claim C1: RRF fusion puts a unanimous top pick first -/

/-- C1.  For all strictly positive weights and ranked lists with distinct
chunk ids per list, a chunk ranked first in both the semantic and the
keyword list is ranked first in the fused output with normalized fused
score exactly 1; and on the spec's concrete example (semantic `[A, B]`,
keyword `[B, C]`, weights 0.7/0.3, `K = 60`) the fused order is
`[B, A, C]`. -/
theorem rrf_unanimous_top :
    (∀ (ws wk : ℚ) (s0 k0 : RetrievalResult)
      (stail ktail : List RetrievalResult),
      0 < ws → 0 < wk → s0.chunk_id = k0.chunk_id →
      ((s0 :: stail).map (fun r => r.chunk_id)).Nodup →
      ((k0 :: ktail).map (fun r => r.chunk_id)).Nodup →
      ∃ rest, rrfFusion ws wk (s0 :: stail) (k0 :: ktail) =
        { s0 with score := 1 } :: rest) ∧
    (rrfFusion (7/10) (3/10) [semA, semB] [kwB, kwC]).map
      (fun r => r.chunk_id) = ["B", "A", "C"] := by
  constructor
  · intro ws wk s0 k0 stail ktail hws hwk hhead hnds hndk
    simp only [List.map_cons, List.nodup_cons] at hnds hndk
    have hnds1 : s0.chunk_id ∉ stail.map (fun r => r.chunk_id) := hnds.1
    have hndk1 : k0.chunk_id ∉ ktail.map (fun r => r.chunk_id) := hndk.1
    have hndk1c : s0.chunk_id ∉ ktail.map (fun r => r.chunk_id) := by
      rw [hhead]
      exact hndk1
    -- the accumulated score of the unanimous top pick
    have hv_inner : (alGet s0.chunk_id
        (rrfAddScores ws 1 (s0 :: stail) [])).getD 0 = ws / (RRF_K + 1) := by
      rw [rrf_valOf_head ws s0 stail 1 [] hnds1, alGet_nil_getD]
      ring
    have hv0 : (alGet s0.chunk_id (rrfAddScores wk 1 (k0 :: ktail)
        (rrfAddScores ws 1 (s0 :: stail) []))).getD 0 =
        ws / (RRF_K + 1) + wk / (RRF_K + 1) := by
      have := rrf_valOf_head wk k0 ktail 1
        (rrfAddScores ws 1 (s0 :: stail) []) hndk1
      rw [← hhead] at this
      rw [this, hv_inner]
    have hKpos : (0:ℚ) < RRF_K + 1 := by unfold RRF_K; norm_num
    have hv0pos : 0 < ws / (RRF_K + 1) + wk / (RRF_K + 1) := by
      have := div_pos hws hKpos
      have := div_pos hwk hKpos
      linarith
    -- every other key scores strictly below
    have hbound : ∀ c, c ≠ s0.chunk_id →
        (alGet c (rrfAddScores wk 1 (k0 :: ktail)
          (rrfAddScores ws 1 (s0 :: stail) []))).getD 0 ≤
          ws / (RRF_K + 2) + wk / (RRF_K + 2) := by
      intro c hc
      have hsem : (alGet c (rrfAddScores ws 1 (s0 :: stail) [])).getD 0 ≤
          ws / (RRF_K + 2) := by
        show (alGet c (rrfAddScores ws (1 + 1) stail
          (alAddQ s0.chunk_id (ws / (RRF_K + 1)) []))).getD 0 ≤ _
        have hb := rrf_valOf_bound ws hws stail (1 + 1) (by norm_num)
          (alAddQ s0.chunk_id (ws / (RRF_K + 1)) []) c hnds.2
        rw [valOf_alAddQ, if_neg (fun h => hc h.symm), alGet_nil_getD] at hb
        have h2 : (1:ℚ) + 1 = 2 := by norm_num
        rw [h2] at hb
        linarith
      show (alGet c (rrfAddScores wk (1 + 1) ktail
        (alAddQ k0.chunk_id (wk / (RRF_K + 1))
          (rrfAddScores ws 1 (s0 :: stail) [])))).getD 0 ≤ _
      have hb := rrf_valOf_bound wk hwk ktail (1 + 1) (by norm_num)
        (alAddQ k0.chunk_id (wk / (RRF_K + 1))
          (rrfAddScores ws 1 (s0 :: stail) [])) c hndk.2
      have hck : ¬ k0.chunk_id = c := by
        rw [← hhead]
        exact fun h => hc h.symm
      rw [valOf_alAddQ, if_neg hck] at hb
      have h2 : (1:ℚ) + 1 = 2 := by norm_num
      rw [h2] at hb
      linarith
    have hlt : ws / (RRF_K + 2) + wk / (RRF_K + 2) <
        ws / (RRF_K + 1) + wk / (RRF_K + 1) := by
      have h1 : ws / (RRF_K + 2) < ws / (RRF_K + 1) :=
        div_lt_div_of_pos_left hws hKpos (by unfold RRF_K; norm_num)
      have h2 : wk / (RRF_K + 2) < wk / (RRF_K + 1) :=
        div_lt_div_of_pos_left hwk hKpos (by unfold RRF_K; norm_num)
      linarith
    -- the score dict has distinct keys and contains the top pair
    have hkeys : ((rrfAddScores wk 1 (k0 :: ktail)
        (rrfAddScores ws 1 (s0 :: stail) [])).map Prod.fst).Nodup := by
      apply rrf_keys_nodup
      apply rrf_keys_nodup
      exact List.nodup_nil
    have hgets : alGet s0.chunk_id (rrfAddScores wk 1 (k0 :: ktail)
        (rrfAddScores ws 1 (s0 :: stail) [])) =
        some (ws / (RRF_K + 1) + wk / (RRF_K + 1)) := by
      cases halg : alGet s0.chunk_id (rrfAddScores wk 1 (k0 :: ktail)
          (rrfAddScores ws 1 (s0 :: stail) [])) with
      | none =>
          exfalso
          rw [halg] at hv0
          simp at hv0
          rw [← hv0] at hv0pos
          exact lt_irrefl _ hv0pos
      | some w =>
          rw [halg] at hv0
          simp at hv0
          rw [hv0]
    have hc0mem : (s0.chunk_id, ws / (RRF_K + 1) + wk / (RRF_K + 1)) ∈
        rrfAddScores wk 1 (k0 :: ktail)
          (rrfAddScores ws 1 (s0 :: stail) []) :=
      alGet_some_mem _ _ _ hgets
    -- every pair's value is read back by alGet
    have hpairval : ∀ p ∈ rrfAddScores wk 1 (k0 :: ktail)
        (rrfAddScores ws 1 (s0 :: stail) []),
        p.1 ≠ s0.chunk_id → p.2 < ws / (RRF_K + 1) + wk / (RRF_K + 1) := by
      intro p hp hpne
      have := alGet_mem_of_nodup _ p.1 p.2 hkeys hp
      have hval : (alGet p.1 (rrfAddScores wk 1 (k0 :: ktail)
          (rrfAddScores ws 1 (s0 :: stail) []))).getD 0 = p.2 := by
        rw [this]
        rfl
      have hb := hbound p.1 hpne
      rw [hval] at hb
      linarith
    have hpairtop : ∀ p ∈ rrfAddScores wk 1 (k0 :: ktail)
        (rrfAddScores ws 1 (s0 :: stail) []),
        p.1 = s0.chunk_id → p.2 = ws / (RRF_K + 1) + wk / (RRF_K + 1) := by
      intro p hp hpe
      have := alGet_mem_of_nodup _ p.1 p.2 hkeys hp
      rw [hpe, hgets] at this
      injection this with h
      exact h.symm
    -- sorted scores start with the top pair
    have hscne : rrfAddScores wk 1 (k0 :: ktail)
        (rrfAddScores ws 1 (s0 :: stail) []) ≠ [] := by
      intro hcon
      rw [hcon] at hc0mem
      cases hc0mem
    obtain ⟨sh, st', hsort⟩ := List.exists_cons_of_ne_nil
      (sortDesc_ne_nil (fun p => p.2) _ hscne)
    obtain ⟨hshmem, hshmax⟩ := sortDesc_head_max (fun p => p.2) _ sh st' hsort
    have hsh : sh = (s0.chunk_id, ws / (RRF_K + 1) + wk / (RRF_K + 1)) := by
      by_cases hsh1 : sh.1 = s0.chunk_id
      · have := hpairtop sh hshmem hsh1
        rcases sh with ⟨shk, shv⟩
        simp only at hsh1 this
        rw [hsh1, this]
      · exfalso
        have h1 := hpairval sh hshmem hsh1
        have h2 := hshmax (s0.chunk_id, ws / (RRF_K + 1) + wk / (RRF_K + 1))
          hc0mem
        simp only at h2
        have : ws / (RRF_K + 1) + wk / (RRF_K + 1) ≤ sh.2 := h2
        linarith
    -- the maximum accumulated score is the top score
    have hmax : maxQ ((rrfAddScores wk 1 (k0 :: ktail)
        (rrfAddScores ws 1 (s0 :: stail) [])).map (fun p => p.2)) =
        ws / (RRF_K + 1) + wk / (RRF_K + 1) := by
      apply maxQ_eq_of_max
      · intro y hy
        rcases List.mem_map.mp hy with ⟨p, hp, hpy⟩
        rw [← hpy]
        by_cases hp1 : p.1 = s0.chunk_id
        · rw [hpairtop p hp hp1]
        · exact le_of_lt (hpairval p hp hp1)
      · exact List.mem_map.mpr ⟨_, hc0mem, rfl⟩
    -- the results map resolves the top pick to the semantic head
    have hrm : alGet s0.chunk_id
        (rrfMapKw (k0 :: ktail) (rrfMapSem (s0 :: stail) [])) = some s0 :=
      rrfMapKw_preserves (k0 :: ktail) _ _ s0
        (rrfMapSem_head s0 stail [] hnds1)
    -- assemble the fused list
    refine ⟨(st').filterMap (fun p =>
      (alGet p.1 (rrfMapKw (k0 :: ktail) (rrfMapSem (s0 :: stail) []))).map
        (fun r => { r with score := p.2 / (ws / (RRF_K + 1) + wk / (RRF_K + 1)) })), ?_⟩
    have hfus : rrfFusion ws wk (s0 :: stail) (k0 :: ktail) =
        (sortDesc (fun p => p.2) (rrfAddScores wk 1 (k0 :: ktail)
          (rrfAddScores ws 1 (s0 :: stail) []))).filterMap (fun p =>
          (alGet p.1 (rrfMapKw (k0 :: ktail)
            (rrfMapSem (s0 :: stail) []))).map (fun r =>
            { r with score := p.2 / maxQ ((rrfAddScores wk 1 (k0 :: ktail)
              (rrfAddScores ws 1 (s0 :: stail) [])).map (fun p => p.2)) })) :=
      rfl
    rw [hfus, hsort, hmax, List.filterMap_cons, hsh]
    simp only [hrm, Option.map_some']
    have hds : (ws / (RRF_K + 1) + wk / (RRF_K + 1)) /
        (ws / (RRF_K + 1) + wk / (RRF_K + 1)) = 1 :=
      div_self (ne_of_gt hv0pos)
    rw [hds]
  · -- the spec's concrete example
    have hAB : ((("A":String) = "B")) = False := eq_false (by decide)
    have hAC : ((("A":String) = "C")) = False := eq_false (by decide)
    have hBC : ((("B":String) = "C")) = False := eq_false (by decide)
    have hBA : ((("B":String) = "A")) = False := eq_false (by decide)
    have hCA : ((("C":String) = "A")) = False := eq_false (by decide)
    have hCB : ((("C":String) = "B")) = False := eq_false (by decide)
    have h1 : rrfAddScores (7/10) 1 [semA, semB] [] =
        [("A", 7/610), ("B", 7/620)] := by
      norm_num [rrfAddScores, alAddQ, RRF_K, semA, semB, rrOf, hAB, hBA]
    have h2 : rrfAddScores (3/10) 1 [kwB, kwC]
        [("A", 7/610), ("B", 7/620)] =
        [("A", 7/610), ("B", 613/37820), ("C", 3/620)] := by
      norm_num [rrfAddScores, alAddQ, RRF_K, kwB, kwC, rrOf, hAB, hBA, hAC,
        hBC, hCA, hCB]
    have h3 : rrfMapSem [semA, semB] [] = [("A", semA), ("B", semB)] := by
      norm_num [rrfMapSem, alSet, semA, semB, rrOf, hAB, hBA]
    have h4 : rrfMapKw [kwB, kwC] [("A", semA), ("B", semB)] =
        [("A", semA), ("B", semB), ("C", kwC)] := by
      norm_num [rrfMapKw, alSetIfAbsent, semA, semB, kwB, kwC, rrOf, hAB,
        hBA, hAC, hBC, hCA, hCB]
    have h5 : sortDesc (fun p => p.2)
        ([("A", (7:ℚ)/610), ("B", 613/37820), ("C", 3/620)] :
          List (String × ℚ)) =
        [("B", 613/37820), ("A", 7/610), ("C", 3/620)] := by
      norm_num [sortDesc, insertDesc]
    have h6 : maxQ ([("A", (7:ℚ)/610), ("B", 613/37820), ("C", 3/620)].map
        (fun p => p.2)) = 613/37820 := by
      norm_num [maxQ]
    simp only [rrfFusion, h1, h2, h3, h4, h5, h6]
    norm_num [alGet, List.filterMap, semA, semB, kwC, rrOf, hAB, hBA, hAC,
      hBC, hCA, hCB]

/-- Witness for C1: with semantic list `[B, A]` and keyword list `[B, C]`
the chunk `B` tops both lists, the weights 0.7/0.3 are positive, the id
lists are duplicate-free, and the fused output starts with `B` at
normalized score 1. -/
theorem rrf_unanimous_top_witness :
    (0:ℚ) < 7/10 ∧ (0:ℚ) < 3/10 ∧
    semB.chunk_id = kwB.chunk_id ∧
    (([semB, semA].map (fun r => r.chunk_id)).Nodup ∧
     ([kwB, kwC].map (fun r => r.chunk_id)).Nodup) ∧
    ∃ rest, rrfFusion (7/10) (3/10) [semB, semA] [kwB, kwC] =
      { semB with score := 1 } :: rest := by
  refine ⟨by norm_num, by norm_num, rfl, ⟨by decide, by decide⟩, ?_⟩
  exact rrf_unanimous_top.1 (7/10) (3/10) semB kwB [semA] [kwC]
    (by norm_num) (by norm_num) rfl (by decide) (by decide)

/-! ## Helper lemmas: citation extraction -/

/-- Reading the numbered citation map built by `enumerate(context, start)`. -/
theorem alGet_citationMapFrom :
    ∀ (context : List RetrievalResult) (start n : Nat),
      alGet n (citationMapFrom start context) =
        if start ≤ n then context[n - start]? else none := by
  intro context
  induction context with
  | nil =>
      intro start n
      simp [citationMapFrom, alGet]
  | cons r rest ih =>
      intro start n
      show alGet n ((start, r) :: citationMapFrom (start + 1) rest) = _
      by_cases hsn : start = n
      · subst hsn
        simp [alGet]
      · rw [show alGet n ((start, r) :: citationMapFrom (start + 1) rest) =
            alGet n (citationMapFrom (start + 1) rest) by
          simp [alGet, hsn]]
        rw [ih (start + 1) n]
        by_cases hle : start ≤ n
        · have hlt : start + 1 ≤ n := by omega
          rw [if_pos hlt, if_pos hle]
          have hidx : n - start = (n - (start + 1)) + 1 := by omega
          rw [hidx]
          simp
        · rw [if_neg (by omega), if_neg hle]

/-- Each emitted citation record carries its source number. -/
theorem mkCitation_id (n : Nat) (chunk : RetrievalResult) :
    (mkCitation n chunk).citation_id = n := rfl

/-! ## Claim C2: citation extraction is exact, valid and ordered -/

/-- C2.  For every generated answer and nonempty context, the extracted
citations have strictly increasing ids (hence exactly one Citation per
distinct number); every citation's id is a bracketed number of the answer
and a valid 1-based index into the context, its fields are those built from
the indexed chunk, and its excerpt is the first 200 characters of that
chunk's content with `"..."` appended exactly when the content is longer
than 200; and every distinct bracketed number that is a valid index yields a
citation, while numbers with no context entry are dropped. -/
theorem extract_citations_exact (answer : List Char)
    (context : List RetrievalResult) (hne : context ≠ []) :
    (extractCitations answer (citationMap context)).Pairwise
      (fun a b => a.citation_id < b.citation_id) ∧
    (∀ c ∈ extractCitations answer (citationMap context),
      c.citation_id ∈ findCitationNums answer ∧
      1 ≤ c.citation_id ∧ c.citation_id ≤ context.length ∧
      ∃ chunk, context[c.citation_id - 1]? = some chunk ∧
        c = mkCitation c.citation_id chunk ∧
        c.excerpt = chunk.content.take 200 ++
          (if 200 < chunk.content.length then "...".toList else [])) ∧
    (∀ n ∈ findCitationNums answer, 1 ≤ n → n ≤ context.length →
      ∃ c ∈ extractCitations answer (citationMap context),
        c.citation_id = n) := by
  refine ⟨?_, ?_, ?_⟩
  · unfold extractCitations
    rw [List.pairwise_filterMap]
    refine (pairwise_lt_sortAsc_dedup (findCitationNums answer)).imp ?_
    intro n m hnm
    intro a ha b hb
    simp only [Option.mem_def, Option.map_eq_some'] at ha hb
    rcases ha with ⟨ca, _, hca⟩
    rcases hb with ⟨cb, _, hcb⟩
    rw [← hca, ← hcb]
    simpa [mkCitation_id] using hnm
  · intro c hc
    unfold extractCitations at hc
    rcases List.mem_filterMap.mp hc with ⟨n, hn, hf⟩
    rcases Option.map_eq_some'.mp hf with ⟨chunk, hget, hmk⟩
    have hid : c.citation_id = n := by rw [← hmk]; rfl
    unfold citationMap at hget
    rw [alGet_citationMapFrom context 1 n] at hget
    by_cases h1 : 1 ≤ n
    · rw [if_pos h1] at hget
      rcases List.getElem?_eq_some_iff.mp hget with ⟨hlt, _⟩
      refine ⟨?_, ?_, ?_, chunk, ?_, ?_, ?_⟩
      · rw [hid]
        exact (List.mem_dedup.mp
          ((perm_sortAsc (findCitationNums answer).dedup).mem_iff.mp hn))
      · omega
      · rw [hid]
        omega
      · rw [hid]
        exact hget
      · rw [← hmk]
        rfl
      · rw [← hmk]
        rfl
    · rw [if_neg h1] at hget
      cases hget
  · intro n hn h1 hlen
    have hidx : n - 1 < context.length := by omega
    obtain ⟨chunk, hchunk⟩ : ∃ a, context[n - 1]? = some a :=
      ⟨context[n - 1], List.getElem?_eq_some_iff.mpr ⟨hidx, rfl⟩⟩
    refine ⟨mkCitation n chunk, ?_, rfl⟩
    unfold extractCitations
    apply List.mem_filterMap.mpr
    refine ⟨n, ?_, ?_⟩
    · exact (perm_sortAsc (findCitationNums answer).dedup).mem_iff.mpr
        (List.mem_dedup.mpr hn)
    · unfold citationMap
      rw [alGet_citationMapFrom context 1 n, if_pos h1, hchunk]
      rfl

/-- Witness for C2 at the spec's example: context ids `{1, 2, 3}`, answer
referencing `[1]` and `[3]` twice each and `[9]` once; extraction yields
exactly ids `[1, 3]`. -/
theorem extract_citations_exact_witness :
    [ctxA, ctxB, ctxC] ≠ [] ∧
    (extractCitations exampleAnswer.toList
      (citationMap [ctxA, ctxB, ctxC])).map
        (fun c => c.citation_id) = [1, 3] ∧
    (1 ∈ findCitationNums exampleAnswer.toList ∧
      ∃ c ∈ extractCitations exampleAnswer.toList
        (citationMap [ctxA, ctxB, ctxC]), c.citation_id = 1) := by
  refine ⟨by decide, by decide, by decide, ?_⟩
  exact (extract_citations_exact exampleAnswer.toList [ctxA, ctxB, ctxC]
    (by decide)).2.2 1 (by decide) (by decide) (by decide)

/-! ## Claim C6: deduplication output is key-unique -/

/-- C6.  After deduplication no two output records share a lower-cased DOI,
and among DOI-less output records no two share the 100-character lower-cased
trimmed title key; every DOI-less output record is an input record kept
unmerged, namely the first DOI-less input record carrying its title key
(later occurrences are dropped). -/
theorem dedup_output_unique (rs : List LiteratureResult) :
    (deduplicateResults rs).Pairwise
      (fun a b => hasDoi a = true → hasDoi b = true →
        doiKey a ≠ doiKey b) ∧
    (deduplicateResults rs).Pairwise
      (fun a b => hasDoi a = false → hasDoi b = false →
        titleKey a ≠ titleKey b) ∧
    (∀ r ∈ deduplicateResults rs, hasDoi r = false →
      r ∈ rs ∧
      (rs.filter (fun x =>
        decide (titleKey x = titleKey r) && !hasDoi x)).head? = some r) := by
  have hgood : GoodGroups (groupByDoi rs).1 :=
    goodGroups_fold rs ([], [])
      ⟨List.nodup_nil, by intro p hp; cases hp⟩
  have hsnd : (groupByDoi rs).2 = rs.filter (fun r => !hasDoi r) := by
    show (rs.foldl groupStep ([], [])).2 = _
    rw [groupByDoi_snd]
    simp
  obtain ⟨hallDoi, _, hpwm⟩ := merged_records_keyed _ hgood
  have htmem : ∀ t ∈ dedupByTitle [] (groupByDoi rs).2,
      hasDoi t = false := by
    intro t ht
    have hsub := dedupByTitle_subset _ [] t ht
    rw [hsnd] at hsub
    have := (List.mem_filter.mp hsub).2
    simpa using this
  unfold deduplicateResults
  refine ⟨?_, ?_, ?_⟩
  · rw [List.pairwise_append]
    refine ⟨hpwm.imp (fun h _ _ => h), ?_, ?_⟩
    · refine List.Pairwise.imp_of_mem ?_ (pairwise_true _)
      intro a b ha hb _
      intro h1 h2
      rw [htmem a ha] at h1
      cases h1
    · intro a ha b hb h1 h2
      rw [htmem b hb] at h2
      cases h2
  · rw [List.pairwise_append]
    refine ⟨?_, ?_, ?_⟩
    · refine List.Pairwise.imp_of_mem ?_ (pairwise_true _)
      intro a b ha hb _
      intro h1 h2
      rw [hallDoi a ha] at h1
      cases h1
    · exact (dedupByTitle_pairwise _ []).imp (fun h _ _ => h)
    · intro a ha b hb h1 h2
      rw [hallDoi a ha] at h1
      cases h1
  · intro r hr hdoi
    rcases List.mem_append.mp hr with hm | ht
    · rw [hallDoi r hm] at hdoi
      cases hdoi
    · have hsub := dedupByTitle_subset _ [] r ht
      rw [hsnd] at hsub
      refine ⟨(List.mem_filter.mp hsub).1, ?_⟩
      have hfirst := dedupByTitle_first _ [] r ht
      rw [hsnd] at hfirst
      rw [List.filter_filter] at hfirst
      exact hfirst

/-- Witness for C6 at the spec's title-fallback example: two DOI-less
records with the same title key collapse to the first, a third with a
different title stays. -/
theorem dedup_output_unique_witness :
    deduplicateResults [litT1, litT2, litT3] = [litT1, litT3] ∧
    hasDoi litT1 = false ∧
    ([litT1, litT2, litT3].filter (fun x =>
      decide (titleKey x = titleKey litT1) && !hasDoi x)).head? =
        some litT1 := by
  refine ⟨by decide, by decide, ?_⟩
  exact ((dedup_output_unique [litT1, litT2, litT3]).2.2 litT1
    (by decide) (by decide)).2

end Aria
